import Mathlib

/-!
Verification of the pocketquant streaming core: the tick-to-bar aggregation
engine (`src/domain/ohlcv/services/bar_builder.py`,
`src/features/market_data/managers/bar_manager.py`) and the streaming
protocol client's frame codec, heartbeat handling and quote dispatch
(`src/infrastructure/tradingview/websocket.py`).

Modelling conventions:
* `datetime` values are naive-UTC instants, embedded as integers counting
  microseconds since the epoch 1970-01-01T00:00:00 (the resolution of
  `datetime`).  On this timeline `datetime.replace(hour=0, minute=0,
  second=0, microsecond=0)` is flooring to a multiple of a day, because in
  the proleptic Gregorian calendar used by naive `datetime` every civil day
  is exactly 86400 seconds and the epoch is a midnight.
* Python floats are embedded as exact rationals (`ℚ`).  Every float
  operation the embedded code performs (comparison, addition, floor
  division by an integer) is exact on the values the claims quantify over.
* Python strings are embedded as `List Char` (a Python `str` is a sequence
  of Unicode code points, which is what `Char` is).
* Fallible code (a `KeyError` on a missing interval entry) returns
  `Option`.
-/

namespace PocketQuant

/-! ## Intervals and durations

`Interval` is the enumerated set of `src/domain/shared/value_objects.py`
(13 members).  `INTERVAL_SECONDS` is the value-objects table (total).
`bmIntervalSeconds` is the 11-entry table at the top of
`src/features/market_data/managers/bar_manager.py`, which has no entries
for `1w` and `1M`; a lookup of a missing key raises `KeyError`, embedded
as `none`. -/

inductive Interval where
  | m1 | m3 | m5 | m15 | m30 | m45
  | h1 | h2 | h3 | h4
  | d1 | w1 | mo1
deriving DecidableEq, Repr

/-- `INTERVAL_SECONDS` of `src/domain/shared/value_objects.py`. -/
def INTERVAL_SECONDS : Interval → ℕ
  | .m1 => 60 | .m3 => 180 | .m5 => 300 | .m15 => 900
  | .m30 => 1800 | .m45 => 2700
  | .h1 => 3600 | .h2 => 7200 | .h3 => 10800 | .h4 => 14400
  | .d1 => 86400 | .w1 => 604800 | .mo1 => 2592000

/-- `INTERVAL_SECONDS` of `bar_manager.py`: the same values, but with no
entries for `1w` and `1M`. -/
def bmIntervalSeconds : Interval → Option ℕ
  | .w1 => none
  | .mo1 => none
  | i => some (INTERVAL_SECONDS i)

/-- Microseconds per second: the resolution factor of the timestamp
embedding. -/
def usPerSec : ℤ := 1000000

/-- Microseconds per civil day. -/
def usPerDay : ℤ := 86400 * usPerSec

/-- `timedelta.total_seconds()` of `timestamp - datetime(1970, 1, 1)`, as
an exact rational number of seconds. -/
def totalSeconds (t : ℤ) : ℚ := (t : ℚ) / (usPerSec : ℚ)

/-- `timestamp.replace(hour=0, minute=0, second=0, microsecond=0)`: the
UTC midnight of the timestamp's calendar date.  On the naive-UTC
microsecond timeline this is the floor to a multiple of `usPerDay`. -/
def replaceMidnight (t : ℤ) : ℤ := usPerDay * t.fdiv usPerDay

/-- `get_bar_start` of `src/domain/ohlcv/services/bar_builder.py`:
`1d` goes to UTC midnight of the calendar date; every other interval is
aligned to the epoch by float floor-division of the elapsed seconds by the
interval's duration (`//` on a float and a positive int is the exact
mathematical floor of the quotient here). -/
def get_bar_start (t : ℤ) (i : Interval) : ℤ :=
  let seconds : ℕ := INTERVAL_SECONDS i
  if i = .d1 then replaceMidnight t
  else
    let alignedSeconds : ℤ := ⌊totalSeconds t / (seconds : ℚ)⌋ * seconds
    alignedSeconds * usPerSec

/-- `_get_bar_start` of `bar_manager.py`: the same algorithm, but the
`INTERVAL_SECONDS[interval]` lookup uses the manager's 11-entry table and
raises (`none`) on `1w`/`1M`.  The lookup happens before the `1d` branch. -/
def bmGetBarStart (t : ℤ) (i : Interval) : Option ℤ :=
  match bmIntervalSeconds i with
  | none => none
  | some seconds =>
    if i = .d1 then some (replaceMidnight t)
    else some (⌊totalSeconds t / (seconds : ℚ)⌋ * seconds * usPerSec)

/-- Duration of an interval in microseconds. -/
def durationUs (i : Interval) : ℤ := INTERVAL_SECONDS i * usPerSec

/-! ### Civil calendar (proleptic Gregorian)

Used only to *state* what "a calendar month boundary" and "a weekday" mean
when settling the claim that `1w`/`1M` align to calendar boundaries.  The
conversion from a day number (days since 1970-01-01) to a civil
`(year, month, day)` triple is the standard era-based algorithm, the one a
`datetime` stores internally. -/

/-- Civil date `(year, month, day)` of a day count relative to 1970-01-01. -/
def civilFromDays (z : ℤ) : ℤ × ℕ × ℕ :=
  let z' := z + 719468
  let era := z'.fdiv 146097
  let doe : ℕ := (z' - era * 146097).toNat
  let yoe : ℕ := (doe - doe / 1460 + doe / 36524 - doe / 146096) / 365
  let doy : ℕ := doe - (365 * yoe + yoe / 4 - yoe / 100)
  let mp : ℕ := (5 * doy + 2) / 153
  let d : ℕ := doy - (153 * mp + 2) / 5 + 1
  let m : ℕ := if mp < 10 then mp + 3 else mp - 9
  (era * 400 + yoe + (if m ≤ 2 then 1 else 0), m, d)

/-- Day of week of a day count, `0` = Sunday … `6` = Saturday
(1970-01-01 was a Thursday, day-of-week `4`). -/
def dayOfWeek (z : ℤ) : ℕ := ((z + 4).emod 7).toNat

/-- `t` is the first instant (UTC midnight) of a calendar month. -/
def isMonthStartMidnight (t : ℤ) : Bool :=
  t.emod usPerDay = 0 ∧ (civilFromDays (t.fdiv usPerDay)).2.2 = 1

/-! ## Ticks and the bar builder

`QuoteTick` is the model of `src/features/market_data/models/quote.py`:
`{symbol, exchange, timestamp, price, volume?}`.  `BarBuilder` embeds the
`BarBuilder` class of `bar_manager.py` (the `dataclass` of
`bar_builder.py` is field-for-field the same; its `add_tick` differs only
in testing `volume is not None` where the manager's tests truthiness,
which never changes the resulting state because adding `0.0` is a no-op). -/

structure QuoteTick where
  symbol : List Char
  exchange : List Char
  timestamp : ℤ
  price : ℚ
  volume : Option ℚ

/-- The mutable bar-builder state.  The Python attribute `open` is spelled
`open_` because `open` is reserved in Lean. -/
structure BarBuilder where
  symbol : List Char
  exchange : List Char
  interval : Interval
  barStart : ℤ
  barEnd : ℤ
  open_ : Option ℚ
  high : Option ℚ
  low : Option ℚ
  close : Option ℚ
  volume : ℚ
  tickCount : ℕ

/-- `BarBuilder.__init__` given the interval's duration in seconds:
`bar_end = bar_start + timedelta(seconds=seconds)`, OHLC all `None`,
volume `0.0`, tick count `0`. -/
def BarBuilder.init (symbol exchange : List Char) (i : Interval)
    (barStart : ℤ) (seconds : ℕ) : BarBuilder :=
  { symbol := symbol, exchange := exchange, interval := i
    barStart := barStart, barEnd := barStart + seconds * usPerSec
    open_ := none, high := none, low := none, close := none
    volume := 0, tickCount := 0 }

/-- `BarBuilder(...)` inside `bar_manager.py`: the constructor looks the
duration up in the manager's 11-entry table and raises on `1w`/`1M`. -/
def bmNewBuilder (symbol exchange : List Char) (i : Interval)
    (barStart : ℤ) : Option BarBuilder :=
  (bmIntervalSeconds i).map (BarBuilder.init symbol exchange i barStart)

/-- `BarBuilder.add_tick`: reject (return `false`, mutate nothing) when the
timestamp is before `bar_start` or at/after `bar_end`; otherwise set `open`
on the first accepted tick, raise `high`, lower `low`, always overwrite
`close`, add the volume when it is present and nonzero (`if tick.volume:`),
and count the tick. -/
def BarBuilder.addTick (b : BarBuilder) (tick : QuoteTick) : Bool × BarBuilder :=
  if tick.timestamp < b.barStart ∨ b.barEnd ≤ tick.timestamp then (false, b)
  else
    (true,
      { b with
        open_ := some ((b.open_).getD tick.price)
        high := some (match b.high with
          | none => tick.price
          | some h => if h < tick.price then tick.price else h)
        low := some (match b.low with
          | none => tick.price
          | some l => if tick.price < l then tick.price else l)
        close := some tick.price
        volume := (match tick.volume with
          | none => b.volume
          | some v => if v = 0 then b.volume else b.volume + v)
        tickCount := b.tickCount + 1 })

/-- `BarBuilder.is_complete(current_time)`: `current_time >= self.bar_end`. -/
def BarBuilder.isComplete (b : BarBuilder) (now : ℤ) : Bool := b.barEnd ≤ now

/-- `BarBuilder.is_empty()`: `self.tick_count == 0`. -/
def BarBuilder.isEmpty (b : BarBuilder) : Bool := b.tickCount = 0

/-- The immutable completed bar (`AggregatedBar` of `models/quote.py`). -/
structure AggregatedBar where
  symbol : List Char
  exchange : List Char
  interval : Interval
  barStart : ℤ
  barEnd : ℤ
  open_ : ℚ
  high : ℚ
  low : ℚ
  close : ℚ
  volume : ℚ
  tickCount : ℕ

/-- `BarBuilder.to_aggregated_bar`: `None` for an empty builder; otherwise
an `AggregatedBar` from the builder's fields.  The pydantic model types
OHLC as `float`, so a (unreachable) `None` field cannot validate, embedded
as `none`. -/
def BarBuilder.toAggregatedBar (b : BarBuilder) : Option AggregatedBar :=
  if b.tickCount = 0 then none
  else
    match b.open_, b.high, b.low, b.close with
    | some o, some h, some l, some c =>
      some { symbol := b.symbol, exchange := b.exchange, interval := b.interval
             barStart := b.barStart, barEnd := b.barEnd
             open_ := o, high := h, low := l, close := c
             volume := b.volume, tickCount := b.tickCount }
    | _, _, _, _ => none

/-- `BarManager._save_completed_bar`: skip empty builders; otherwise upsert
the aggregated bar.  The value is the list of documents the call upserts
(`[]` or a singleton). -/
def saveCompletedBar (b : BarBuilder) : List AggregatedBar :=
  if b.isEmpty then []
  else
    match b.toAggregatedBar with
    | none => []
    | some a => [a]

/-- `BarManager._process_tick_for_interval` for one `(symbol_key, interval)`
slot: `cur` is the slot's builder (`None` when absent).  Returns the new
slot builder together with the bars persisted by the call; `none` embeds
the `KeyError` raised for an interval missing from the manager's table.
After the call the returned builder is also published to the cache
(`_cache_current_bar`). -/
def processTickForInterval (tick : QuoteTick) (i : Interval)
    (cur : Option BarBuilder) : Option (BarBuilder × List AggregatedBar) :=
  match bmGetBarStart tick.timestamp i with
  | none => none
  | some barStart =>
    match cur with
    | none =>
      match bmNewBuilder tick.symbol tick.exchange i barStart with
      | none => none
      | some nb => some ((nb.addTick tick).2, [])
    | some cb =>
      if cb.isComplete tick.timestamp then
        match bmNewBuilder tick.symbol tick.exchange i barStart with
        | none => none
        | some nb => some ((nb.addTick tick).2, saveCompletedBar cb)
      else some ((cb.addTick tick).2, [])

/-- `BarManager.flush_all_bars`: save every non-empty builder, count them,
clear the map.  The builders of the nested dict are passed as a list; the
value is the list of upserted bars and the returned count. -/
def flushAllBars (builders : List BarBuilder) : List AggregatedBar × ℕ :=
  builders.foldl
    (fun acc b =>
      if b.isEmpty then acc else (acc.1 ++ saveCompletedBar b, acc.2 + 1))
    ([], 0)

/-! ## Reachable-state invariant of a builder -/

/-- The OHLCV well-formedness invariant of a builder: volume is
nonnegative; an untouched builder has no OHLC values and zero volume; once
a tick has been accepted all four OHLC values are present with
`low ≤ open ≤ high` and `low ≤ close ≤ high`. -/
def BarInv (b : BarBuilder) : Prop :=
  0 ≤ b.volume
  ∧ (b.tickCount = 0 →
      b.open_ = none ∧ b.high = none ∧ b.low = none ∧ b.close = none
        ∧ b.volume = 0)
  ∧ (b.tickCount ≠ 0 →
      ∃ o h l c, b.open_ = some o ∧ b.high = some h ∧ b.low = some l
        ∧ b.close = some c ∧ l ≤ o ∧ o ≤ h ∧ l ≤ c ∧ c ≤ h)

/-! ## Concrete scenario for the bar-correctness claim -/

/-- An empty one-minute builder whose window is `[0, 60s)`. -/
def c1Builder : BarBuilder := BarBuilder.init ['B','T','C'] ['B','N'] .m1 0 60

/-- An in-window tick at microsecond `ts` with price `p` and volume `v`. -/
def c1Tick (ts : ℤ) (p v : ℚ) : QuoteTick := ⟨['B','T','C'], ['B','N'], ts, p, some v⟩

/-- The builder after feeding `(10,100)`, `(12,50)`, `(8,75)` in order. -/
def c1Run : BarBuilder :=
  (((c1Builder.addTick (c1Tick 0 10 100)).2.addTick
      (c1Tick 1 12 50)).2.addTick (c1Tick 2 8 75)).2

/-! ## The frame codec

The TradingView wire protocol of
`src/infrastructure/tradingview/websocket.py`.  JSON values are embedded
as the inductive `Json` (objects are ordered key-value sequences, faithful
to Python dicts, which are insertion-ordered and cannot hold duplicate
keys); Python floats are outside the model, so JSON numbers are integers
here.  `dumps` is `json.dumps` with its default separators `", "`/`": "`
and `ensure_ascii=True` escaping (including surrogate-pair `\uXXXX`
escapes for astral code points); `loads`/`parseVal` is the strict
`json.loads` grammar on the same value space (a fuel argument makes the
recursion structural; `loads` passes enough fuel for any input).  A lone
surrogate escape, accepted by Python but not representable as a `Char`,
makes the model parser fail; `dumps` never emits one. -/

mutual
inductive Json where
  | null : Json
  | bool (b : Bool) : Json
  | int (n : ℤ) : Json
  | str (s : List Char) : Json
  | arr (elems : JArr) : Json
  | obj (members : JObj) : Json
inductive JArr where
  | nil : JArr
  | cons (hd : Json) (tl : JArr) : JArr
inductive JObj where
  | nil : JObj
  | cons (key : List Char) (val : Json) (tl : JObj) : JObj
end

deriving instance DecidableEq for Json
deriving instance DecidableEq for JArr
deriving instance DecidableEq for JObj

def digitChar (d : ℕ) : Char := Char.ofNat (48 + d)

def natDigsAux : ℕ → ℕ → List Char → List Char
  | 0, _, acc => acc
  | f + 1, n, acc =>
    if n < 10 then digitChar n :: acc
    else natDigsAux f (n / 10) (digitChar (n % 10) :: acc)

def natRepr (n : ℕ) : List Char := natDigsAux (n + 1) n []

def intRepr (n : ℤ) : List Char := (if n < 0 then ['-'] else []) ++ natRepr n.natAbs

def hexDigitChar (d : ℕ) : Char :=
  if d < 10 then Char.ofNat (48 + d) else Char.ofNat (87 + d)

def hex4 (n : ℕ) : List Char :=
  [hexDigitChar (n / 4096 % 16), hexDigitChar (n / 256 % 16),
   hexDigitChar (n / 16 % 16), hexDigitChar (n % 16)]

def escapeChar (c : Char) : List Char :=
  if c = '"' then ['\\', '"']
  else if c = '\\' then ['\\', '\\']
  else if 0x20 ≤ c.toNat ∧ c.toNat ≤ 0x7e then [c]
  else if c = '\n' then ['\\', 'n']
  else if c = '\r' then ['\\', 'r']
  else if c = '\t' then ['\\', 't']
  else if c.toNat = 8 then ['\\', 'b']
  else if c.toNat = 12 then ['\\', 'f']
  else if c.toNat < 0x10000 then '\\' :: 'u' :: hex4 c.toNat
  else
    ('\\' :: 'u' :: hex4 (0xd800 + (c.toNat - 0x10000) / 0x400))
      ++ ('\\' :: 'u' :: hex4 (0xdc00 + (c.toNat - 0x10000) % 0x400))

def escapeString : List Char → List Char
  | [] => []
  | c :: cs => escapeChar c ++ escapeString cs

def quoteString (s : List Char) : List Char := '"' :: (escapeString s ++ ['"'])

mutual
def dumps : Json → List Char
  | .null => ['n', 'u', 'l', 'l']
  | .bool b => if b then ['t', 'r', 'u', 'e'] else ['f', 'a', 'l', 's', 'e']
  | .int n => intRepr n
  | .str s => quoteString s
  | .arr .nil => ['[', ']']
  | .arr (.cons h t) => '[' :: (dumps h ++ dumpsArrTail t ++ [']'])
  | .obj .nil => ['{', '}']
  | .obj (.cons k v t) =>
    '{' :: (quoteString k ++ ':' :: ' ' :: (dumps v ++ dumpsObjTail t ++ ['}']))
def dumpsArrTail : JArr → List Char
  | .nil => []
  | .cons h t => ',' :: ' ' :: (dumps h ++ dumpsArrTail t)
def dumpsObjTail : JObj → List Char
  | .nil => []
  | .cons k v t => ',' :: ' ' :: (quoteString k ++ ':' :: ' ' :: (dumps v ++ dumpsObjTail t))
end




def isWsChar (c : Char) : Bool := c = ' ' ∨ c = '\t' ∨ c = '\n' ∨ c = '\r'

def skipWs : List Char → List Char
  | [] => []
  | c :: cs => if isWsChar c then skipWs cs else c :: cs

def isDigitChar (c : Char) : Bool := 48 ≤ c.toNat ∧ c.toNat ≤ 57

def digitVal (c : Char) : ℕ := c.toNat - 48

def digitsVal (ds : List Char) : ℕ := ds.foldl (fun a c => 10 * a + digitVal c) 0

def hexVal (c : Char) : Option ℕ :=
  if 48 ≤ c.toNat ∧ c.toNat ≤ 57 then some (c.toNat - 48)
  else if 97 ≤ c.toNat ∧ c.toNat ≤ 102 then some (c.toNat - 87)
  else if 65 ≤ c.toNat ∧ c.toNat ≤ 70 then some (c.toNat - 55)
  else none

def hex4Val (a b c d : Char) : Option ℕ :=
  match hexVal a, hexVal b, hexVal c, hexVal d with
  | some va, some vb, some vc, some vd => some (((va * 16 + vb) * 16 + vc) * 16 + vd)
  | _, _, _, _ => none

def unescapeChar : Char → Option Char
  | '"' => some '"'
  | '\\' => some '\\'
  | '/' => some '/'
  | 'b' => some (Char.ofNat 8)
  | 'f' => some (Char.ofNat 12)
  | 'n' => some '\n'
  | 'r' => some '\r'
  | 't' => some '\t'
  | _ => none

def parseStringBody : List Char → Option (List Char × List Char)
  | [] => none
  | '"' :: rest => some ([], rest)
  | '\\' :: 'u' :: a :: b :: c :: d :: rest =>
    (match hex4Val a b c d with
    | none => none
    | some n =>
      if n < 0xd800 ∨ 0xe000 ≤ n then
        match parseStringBody rest with
        | some (s, r) => some (Char.ofNat n :: s, r)
        | none => none
      else if n < 0xdc00 then
        match rest with
        | '\\' :: 'u' :: a2 :: b2 :: c2 :: d2 :: rest2 =>
          (match hex4Val a2 b2 c2 d2 with
          | none => none
          | some n2 =>
            if 0xdc00 ≤ n2 ∧ n2 < 0xe000 then
              match parseStringBody rest2 with
              | some (s, r) =>
                some (Char.ofNat (0x10000 + (n - 0xd800) * 0x400 + (n2 - 0xdc00)) :: s, r)
              | none => none
            else none)
        | _ => none
      else none)
  | '\\' :: e :: rest =>
    (match unescapeChar e with
    | none => none
    | some c =>
      match parseStringBody rest with
      | some (s, r) => some (c :: s, r)
      | none => none)
  | c :: rest =>
    if c.toNat < 0x20 then none
    else
      match parseStringBody rest with
      | some (s, r) => some (c :: s, r)
      | none => none

def parseUNum : List Char → Option (ℕ × List Char)
  | '0' :: rest => some (0, rest)
  | c :: rest =>
    if isDigitChar c then
      some (digitsVal (c :: rest.takeWhile isDigitChar), rest.dropWhile isDigitChar)
    else none
  | [] => none

def parseNumCore (l : List Char) : Option (ℤ × List Char) :=
  match parseUNum l with
  | none => none
  | some (n, r) =>
    match r with
    | '.' :: _ => none
    | 'e' :: _ => none
    | 'E' :: _ => none
    | _ => some ((n : ℤ), r)

def parseNum : List Char → Option (ℤ × List Char)
  | '-' :: rest =>
    (match parseNumCore rest with
    | some (n, r) => some (-n, r)
    | none => none)
  | l => parseNumCore l

mutual
def parseVal : ℕ → List Char → Option (Json × List Char)
  | 0, _ => none
  | f + 1, cs =>
    match skipWs cs with
    | 'n' :: 'u' :: 'l' :: 'l' :: r => some (.null, r)
    | 't' :: 'r' :: 'u' :: 'e' :: r => some (.bool true, r)
    | 'f' :: 'a' :: 'l' :: 's' :: 'e' :: r => some (.bool false, r)
    | '"' :: r =>
      (match parseStringBody r with
      | some (s, r2) => some (.str s, r2)
      | none => none)
    | '[' :: r =>
      (match skipWs r with
      | ']' :: r2 => some (.arr .nil, r2)
      | r2 =>
        match parseArrItems f r2 with
        | some (a, r3) => some (.arr a, r3)
        | none => none)
    | '{' :: r =>
      (match skipWs r with
      | '}' :: r2 => some (.obj .nil, r2)
      | r2 =>
        match parseObjItems f r2 with
        | some (o, r3) => some (.obj o, r3)
        | none => none)
    | cs2 =>
      (match parseNum cs2 with
      | some (n, r) => some (.int n, r)
      | none => none)
def parseArrItems : ℕ → List Char → Option (JArr × List Char)
  | 0, _ => none
  | f + 1, cs =>
    match parseVal f cs with
    | none => none
    | some (v, r) =>
      match skipWs r with
      | ',' :: r2 =>
        (match parseArrItems f r2 with
        | some (t, r3) => some (.cons v t, r3)
        | none => none)
      | ']' :: r2 => some (.cons v .nil, r2)
      | _ => none
def parseObjItems : ℕ → List Char → Option (JObj × List Char)
  | 0, _ => none
  | f + 1, cs =>
    match skipWs cs with
    | '"' :: r =>
      (match parseStringBody r with
      | none => none
      | some (k, r1) =>
        match skipWs r1 with
        | ':' :: r2 =>
          (match parseVal f r2 with
          | none => none
          | some (v, r3) =>
            match skipWs r3 with
            | ',' :: r4 =>
              (match parseObjItems f r4 with
              | some (t, r5) => some (.cons k v t, r5)
              | none => none)
            | '}' :: r4 => some (.cons k v .nil, r4)
            | _ => none)
        | _ => none)
    | _ => none
end

def loads (l : List Char) : Option Json :=
  match parseVal (l.length + 1) l with
  | some (v, r) => if skipWs r = [] then some v else none
  | none => none

def sample : Json :=
  .obj (.cons ['m'] (.str ['q','s','d'])
    (.cons ['p'] (.arr (.cons (.int (-12)) (.cons (.str ['a','\n','😀']) .nil))) .nil))

example : loads (dumps sample) = some sample := by decide

def matchMarker : List Char → Option (List Char)
  | '~' :: 'm' :: '~' :: rest =>
    (match rest.takeWhile isDigitChar with
    | [] => none
    | _ :: _ =>
      match rest.dropWhile isDigitChar with
      | '~' :: 'm' :: '~' :: r => some r
      | _ => none)
  | _ => none

def splitFirst : List Char → Option (List Char × List Char)
  | [] => none
  | c :: cs =>
    match matchMarker (c :: cs) with
    | some r => some ([], r)
    | none =>
      match splitFirst cs with
      | some (p, r) => some (c :: p, r)
      | none => none

def reSplitAux : ℕ → List Char → List (List Char)
  | 0, l => [l]
  | f + 1, l =>
    match splitFirst l with
    | none => [l]
    | some (p, r) => p :: reSplitAux f r

def reSplit (l : List Char) : List (List Char) := reSplitAux l.length l

def pyIsSpace (c : Char) : Bool :=
  c.toNat = 32 ∨ c.toNat = 9 ∨ c.toNat = 10 ∨ c.toNat = 13 ∨ c.toNat = 11 ∨ c.toNat = 12

def pyStrip (l : List Char) : List Char :=
  ((l.dropWhile pyIsSpace).reverse.dropWhile pyIsSpace).reverse

def startsHB : List Char → Bool
  | '~' :: 'h' :: '~' :: _ => true
  | _ => false

def parseMessages (raw : List Char) : List Json :=
  (reSplit raw).filterMap fun part =>
    let p := pyStrip part
    if p = [] then none
    else if startsHB p then none
    else loads p

def jsonMessage (method : List Char) (params : JArr) : Json :=
  .obj (.cons ['m'] (.str method) (.cons ['p'] (.arr params) .nil))

def frameRaw (body : List Char) : List Char :=
  ['~', 'm', '~'] ++ natRepr body.length ++ ['~', 'm', '~'] ++ body

def createMessage (method : List Char) (params : JArr) : List Char :=
  frameRaw (dumps (jsonMessage method params))

def utf8Size (c : Char) : ℕ :=
  if c.toNat < 0x80 then 1
  else if c.toNat < 0x800 then 2
  else if c.toNat < 0x10000 then 3
  else 4

def utf8Len : List Char → ℕ
  | [] => 0
  | c :: cs => utf8Size c + utf8Len cs

def hbAt : List Char → Option (List Char)
  | '~' :: 'h' :: '~' :: c :: rest =>
    if isDigitChar c then some ((c :: rest).takeWhile isDigitChar) else none
  | _ => none

def searchHeartbeat : List Char → Option (List Char)
  | [] => none
  | c :: cs =>
    match hbAt (c :: cs) with
    | some ds => some ds
    | none => searchHeartbeat cs

def containsHB : List Char → Bool
  | [] => false
  | c :: cs => startsHB (c :: cs) || containsHB cs

def chunkEchoes (chunk : List Char) : List (List Char) :=
  if containsHB chunk then
    match searchHeartbeat chunk with
    | some ds => [frameRaw (['~', 'h', '~'] ++ ds)]
    | none => []
  else []

def processChunk (chunk : List Char) : List (List Char) × List Json :=
  (chunkEchoes chunk, parseMessages chunk)

/-- One chunk of the claim's other cited receive loop,
`features/market_data/providers/tradingview_ws.py` `run_forever` (the one
`QuoteService` runs): a chunk containing `~h~` anywhere is answered with the
fixed, unframed string `"~h~1"` (`_send_heartbeat`) and then skipped by
`continue`, so none of its messages is parsed; any other chunk is parsed in
full. Result: (sent replies, dispatched messages). -/
def twsProcessChunk (chunk : List Char) : List (List Char) × List Json :=
  if containsHB chunk then ([['~', 'h', '~', '1']], [])
  else ([], parseMessages chunk)

/-- A chunk holding the heartbeat `~h~5` followed by one framed
`{"m": "hi", "p": []}` message. -/
def c3Chunk : List Char :=
  ('~' :: 'm' :: '~' :: '4' :: '~' :: 'm' :: '~' ::
    '~' :: 'h' :: '~' :: '5' :: []) ++ createMessage ['h', 'i'] JArr.nil


/-- The raw chunk contains a full `~m~<digits>~m~` frame marker. -/
def containsMarker (l : List Char) : Bool := (splitFirst l).isSome

/-- Key list of an object. -/
def jobjKeys : JObj → List (List Char)
  | .nil => []
  | .cons k _ t => k :: jobjKeys t

/-- Pairwise-distinct keys, as a Boolean. -/
def jobjNodup (o : JObj) : Bool := (jobjKeys o).Nodup

mutual
/-- The value is realizable as a Python object: every JSON object carries
pairwise-distinct keys (a Python dict cannot hold duplicates). -/
def jsonWF : Json → Bool
  | .null => true
  | .bool _ => true
  | .int _ => true
  | .str _ => true
  | .arr a => jarrWF a
  | .obj o => jobjNodup o && jobjWF o
def jarrWF : JArr → Bool
  | .nil => true
  | .cons h t => jsonWF h && jarrWF t
def jobjWF : JObj → Bool
  | .nil => true
  | .cons _ v t => jsonWF v && jobjWF t
end

/-! ## Quote-update dispatch (`_handle_quote_update`) -/

/-- Python truthiness of a decoded JSON value (`if not symbol_key or not
values`). -/
def jsonTruthy : Json → Bool
  | .null => false
  | .bool b => b
  | .int n => n ≠ 0
  | .str s => s ≠ []
  | .arr .nil => false
  | .arr (.cons _ _) => true
  | .obj .nil => false
  | .obj (.cons _ _ _) => true

/-- `dict.get` on a decoded JSON object: the *last* binding of a key wins,
as in a Python dict built by insertion. -/
def jObjGet : JObj → List Char → Option Json
  | .nil, _ => none
  | .cons k v t, key =>
    match jObjGet t key with
    | some r => some r
    | none => if k = key then some v else none

/-- The normalized quote-update record the handler builds and passes to
the subscriber callback (`timestamp` is the `datetime.now(UTC)` taken at
dispatch, supplied as the parameter `now`). -/
structure QuoteUpdateRecord where
  symbolKey : List Char
  timestamp : ℤ
  lastPrice : Option Json
  volumeField : Option Json
  bid : Option Json
  ask : Option Json
  change : Option Json
  changePercent : Option Json
  openPrice : Option Json
  highPrice : Option Json
  lowPrice : Option Json
  prevClose : Option Json

def mkQuoteUpdate (sk : List Char) (now : ℤ) (vo : JObj) : QuoteUpdateRecord :=
  { symbolKey := sk, timestamp := now
    lastPrice := jObjGet vo ['l','p']
    volumeField := jObjGet vo ['v','o','l','u','m','e']
    bid := jObjGet vo ['b','i','d']
    ask := jObjGet vo ['a','s','k']
    change := jObjGet vo ['c','h']
    changePercent := jObjGet vo ['c','h','p']
    openPrice := jObjGet vo ['o','p','e','n','_','p','r','i','c','e']
    highPrice := jObjGet vo ['h','i','g','h','_','p','r','i','c','e']
    lowPrice := jObjGet vo ['l','o','w','_','p','r','i','c','e']
    prevClose := jObjGet vo ['p','r','e','v','_','c','l','o','s','e','_','p','r','i','c','e'] }

/-- `TradingViewWebSocketProvider._handle_quote_update`.  `params` is the
decoded `qsd` parameter list, `subs` the registered subscription keys, and
the value is the dispatch that happens: `some (symbol_key, record)` when
the registered callback for `symbol_key` is invoked with the normalized
record, `none` when the update is discarded with no effect.  The handler
never writes any client state itself; its only effect is the callback
dispatch, so `none` means "discarded without side effects".  Shapes that
would raise in Python (a non-dict quote payload or field map, a non-string
symbol key) also dispatch nothing and are returned as `none`; the
session-id comparison happens before any of them is touched, exactly as in
the source. -/
def handleQuoteUpdate (sessionId : List Char) (subs : List (List Char))
    (params : List Json) (now : ℤ) : Option (List Char × QuoteUpdateRecord) :=
  match params with
  | sid :: quoteData :: _ =>
    if sid ≠ Json.str sessionId then none
    else
      match quoteData with
      | .obj o =>
        let symbolKey := (jObjGet o ['n']).getD (.str [])
        let values := (jObjGet o ['v']).getD (.obj .nil)
        if ¬ jsonTruthy symbolKey ∨ ¬ jsonTruthy values then none
        else
          match symbolKey, values with
          | .str sk, .obj vo =>
            if sk ∈ subs then some (sk, mkQuoteUpdate sk now vo) else none
          | _, _ => none
      | _ => none
  | _ => none

/-- A remainder that cannot extend a JSON number: empty, or headed by a
character that is neither a digit nor `.`/`e`/`E`.  Every position a
serialized value can occupy (before `,`, `]`, `}` or the end of input)
satisfies this. -/
def numDelim : List Char → Bool
  | [] => true
  | c :: _ => !(isDigitChar c || c = '.' || c = 'e' || c = 'E')

/-! # Theorems -/

/-! ### Alignment arithmetic -/

theorem fdiv_bounds (a : ℤ) {b : ℤ} (hb : 0 < b) :
    b * a.fdiv b ≤ a ∧ a < b * (a.fdiv b + 1) := by
  rw [Int.fdiv_eq_ediv _ hb.le]
  have h1 := Int.ediv_add_emod a b
  have h2 := Int.emod_nonneg a hb.ne'
  have h3 := Int.emod_lt_of_pos a hb
  constructor <;> nlinarith

/-- The float floor-division the Python source performs, rewritten as
integer floor division on microseconds: for a positive whole number of
seconds `s`, `⌊(t/10^6)/s⌋ = t.fdiv (s * 10^6)`. -/
theorem floor_totalSeconds_div (t : ℤ) (s : ℕ) (hs : 0 < s) :
    ⌊totalSeconds t / (s : ℚ)⌋ = t.fdiv (s * usPerSec) := by
  have hsum : totalSeconds t / (s : ℚ) = (t : ℚ) / ((s * usPerSec : ℤ) : ℚ) := by
    rw [totalSeconds, div_div, usPerSec]
    push_cast
    ring_nf
  rw [hsum]
  have hpos : (0 : ℤ) < s * usPerSec := by
    have : (0 : ℤ) < usPerSec := by norm_num [usPerSec]
    positivity
  rw [Int.fdiv_eq_ediv _ hpos.le]
  have := Rat.floor_intCast_div_natCast t (s * usPerSec).toNat
  rw [Int.toNat_of_nonneg hpos.le] at this
  exact_mod_cast this

theorem INTERVAL_SECONDS_pos (i : Interval) : 0 < INTERVAL_SECONDS i := by
  cases i <;> norm_num [INTERVAL_SECONDS]

/-- Closed form of `get_bar_start` for the non-daily intervals: epoch-modulo
flooring of the timestamp to a multiple of the interval duration in
microseconds. -/
theorem get_bar_start_eq_fdiv (t : ℤ) (i : Interval) (hi : i ≠ .d1) :
    get_bar_start t i
      = (INTERVAL_SECONDS i * usPerSec) * t.fdiv (INTERVAL_SECONDS i * usPerSec) := by
  rw [get_bar_start]
  simp only [if_neg hi]
  rw [floor_totalSeconds_div t _ (INTERVAL_SECONDS_pos i)]
  ring

theorem durationUs_pos (i : Interval) : 0 < durationUs i := by
  have := INTERVAL_SECONDS_pos i
  have : (0 : ℤ) < INTERVAL_SECONDS i := by exact_mod_cast this
  have h2 : (0 : ℤ) < usPerSec := by norm_num [usPerSec]
  rw [durationUs]; positivity

/-- `get_bar_start` always lands on a multiple of the duration for non-daily
intervals, and on a day multiple for `1d`; in every case
`get_bar_start t i = durationUs i * (t.fdiv (durationUs i))`. -/
theorem get_bar_start_closed (t : ℤ) (i : Interval) :
    get_bar_start t i = durationUs i * t.fdiv (durationUs i) := by
  by_cases hi : i = .d1
  · subst hi
    rw [get_bar_start]
    simp only [if_pos rfl]
    rw [replaceMidnight]
    norm_num [usPerDay, durationUs, INTERVAL_SECONDS, usPerSec]
  · rw [get_bar_start_eq_fdiv t i hi, durationUs]

theorem get_bar_start_le (t : ℤ) (i : Interval) : get_bar_start t i ≤ t := by
  rw [get_bar_start_closed]
  exact (fdiv_bounds t (durationUs_pos i)).1

theorem lt_get_bar_start_add (t : ℤ) (i : Interval) :
    t < get_bar_start t i + durationUs i := by
  rw [get_bar_start_closed]
  have := (fdiv_bounds t (durationUs_pos i)).2
  nlinarith [durationUs_pos i]

theorem get_bar_start_idem (t : ℤ) (i : Interval) :
    get_bar_start (get_bar_start t i) i = get_bar_start t i := by
  rw [get_bar_start_closed t i, get_bar_start_closed]
  have hd := (durationUs_pos i).ne'
  rw [Int.mul_fdiv_cancel_left _ hd]

/-- The manager's `_get_bar_start` agrees with the domain `get_bar_start`
whenever its table has the interval. -/
theorem bmGetBarStart_eq (t : ℤ) (i : Interval) (s : ℕ)
    (h : bmIntervalSeconds i = some s) :
    bmGetBarStart t i = some (get_bar_start t i) := by
  have hs : INTERVAL_SECONDS i = s := by
    cases i <;> simp_all [bmIntervalSeconds]
  subst hs
  rw [bmGetBarStart, h, get_bar_start]
  by_cases hi : i = .d1
  · simp [hi]
  · simp only [if_neg hi]


/-! ### Bar correctness on the spec's concrete tick sequence (C1) -/

/-- C1 counterexample: feeding `[(10,100),(12,50),(8,75)]` to an empty
builder leaves `close = 8` — the last *price* — not `75` (the last tick's
volume), so the claimed `close=75` is false. -/
theorem C1_counterexample : c1Run.close = some 8 ∧ c1Run.close ≠ some 75 := by
  have h : c1Run.close = some 8 := by
    norm_num [c1Run, c1Builder, c1Tick, BarBuilder.addTick, BarBuilder.init, usPerSec]
  refine ⟨h, ?_⟩
  rw [h]
  intro hc
  exact absurd (Option.some.inj hc) (by norm_num)

/-- C1 (amended): the three in-window ticks are all accepted and yield
`open=10, high=12, low=8, close=8, volume=225, tick_count=3`. -/
theorem C1_bar_correctness :
    (c1Builder.addTick (c1Tick 0 10 100)).1 = true
    ∧ ((c1Builder.addTick (c1Tick 0 10 100)).2.addTick (c1Tick 1 12 50)).1 = true
    ∧ (((c1Builder.addTick (c1Tick 0 10 100)).2.addTick
          (c1Tick 1 12 50)).2.addTick (c1Tick 2 8 75)).1 = true
    ∧ c1Run.open_ = some 10 ∧ c1Run.high = some 12 ∧ c1Run.low = some 8
    ∧ c1Run.close = some 8 ∧ c1Run.volume = 225 ∧ c1Run.tickCount = 3 := by
  refine ⟨?_, ?_, ?_, ?_, ?_, ?_, ?_, ?_, ?_⟩ <;>
    norm_num [c1Run, c1Builder, c1Tick, BarBuilder.addTick, BarBuilder.init, usPerSec]

/-! ### The interval set and calendar alignment (C2) -/

/-- C2 counterexample: `1w` and `1M` do *not* align to calendar
boundaries.  1970-02-01T00:00 is the first midnight of a calendar month,
yet the `1M` alignment moves it to 1970-01-31T00:00 (day 31 of January,
not a month boundary); and the `1w` alignment sends both the Sunday
1970-01-04T00:00 and the Monday 1970-01-05T00:00 to 1970-01-01 — a
Thursday, the epoch's weekday — so no calendar week convention is
respected either. -/
theorem C2_counterexample :
    isMonthStartMidnight (31 * usPerDay) = true
    ∧ get_bar_start (31 * usPerDay) .mo1 = 30 * usPerDay
    ∧ isMonthStartMidnight (30 * usPerDay) = false
    ∧ get_bar_start (31 * usPerDay) .mo1 ≠ 31 * usPerDay
    ∧ get_bar_start (4 * usPerDay) .w1 = 0
    ∧ get_bar_start (3 * usPerDay) .w1 = 0
    ∧ dayOfWeek 4 = 1 ∧ dayOfWeek 3 = 0 ∧ dayOfWeek 0 = 4 := by
  refine ⟨by decide, ?_, by decide, ?_, ?_, ?_, by decide, by decide, by decide⟩ <;>
    rw [get_bar_start_closed] <;> decide

/-- C2 (amended): the alignment function of the domain layer is total on
all thirteen intervals; every interval other than `1d` — including `1w`
(604800 s) and `1M` (2592000 s) — aligns by epoch modulo its fixed
duration in seconds, and `1d` aligns to UTC midnight of the timestamp's
calendar date; the bar manager's own table additionally lacks the
`1w`/`1M` entries. -/
theorem C2_interval_alignment (t : ℤ) (i : Interval) :
    (i ≠ .d1 → get_bar_start t i = durationUs i * t.fdiv (durationUs i))
    ∧ get_bar_start t .d1 = replaceMidnight t
    ∧ ((bmGetBarStart t i).isSome ↔ i ≠ .w1 ∧ i ≠ .mo1) := by
  refine ⟨?_, ?_, ?_⟩
  · intro hi
    rw [get_bar_start_eq_fdiv t i hi, durationUs]
  · rw [get_bar_start]; simp
  · cases i <;> simp [bmGetBarStart, bmIntervalSeconds]

/-- Witness for `C2_interval_alignment` at `t = 90000000`, `i = 5m`. -/
theorem C2_interval_alignment_witness :
    get_bar_start 90000000 .m5 = durationUs .m5 * (90000000 : ℤ).fdiv (durationUs .m5) :=
  (C2_interval_alignment 90000000 .m5).1 (by decide)

/-! ### Alignment bounds and idempotence (C4) -/

/-- C4: for every timestamp `t` and supported interval `i`,
`align(t,i) ≤ t < align(t,i) + duration(i)` and alignment is idempotent;
the daily alignment is the UTC midnight of the timestamp's calendar date;
and the bar manager's `_get_bar_start` computes the same value whenever
its table has the interval. -/
theorem C4_alignment_property (t : ℤ) (i : Interval) :
    get_bar_start t i ≤ t
    ∧ t < get_bar_start t i + durationUs i
    ∧ get_bar_start (get_bar_start t i) i = get_bar_start t i
    ∧ get_bar_start t .d1 = replaceMidnight t
    ∧ (∀ s, bmIntervalSeconds i = some s →
        bmGetBarStart t i = some (get_bar_start t i)) :=
  ⟨get_bar_start_le t i, lt_get_bar_start_add t i, get_bar_start_idem t i,
   by rw [get_bar_start]; simp,
   fun s hs => bmGetBarStart_eq t i s hs⟩

/-- Witness for `C4_alignment_property` at `t = 100`, `i = 1m`. -/
theorem C4_alignment_property_witness :
    bmGetBarStart 100 .m1 = some (get_bar_start 100 .m1) :=
  (C4_alignment_property 100 .m1).2.2.2.2 60 (by decide)

/-! ### The rejection boundary of `add_tick` (C9) -/

/-- C9: `add_tick` returns `False` and leaves every field unchanged
exactly when the tick's timestamp falls outside `[bar_start, bar_end)`;
in particular a tick stamped exactly `bar_end` is rejected. -/
theorem C9_rejection_boundary :
    (∀ (b : BarBuilder) (tick : QuoteTick),
      ((b.addTick tick).1 = false ∧ (b.addTick tick).2 = b)
        ↔ (tick.timestamp < b.barStart ∨ b.barEnd ≤ tick.timestamp))
    ∧ ∀ (b : BarBuilder) (tick : QuoteTick),
        tick.timestamp = b.barEnd →
          (b.addTick tick).1 = false ∧ (b.addTick tick).2 = b := by
  have key : ∀ (b : BarBuilder) (tick : QuoteTick),
      ((b.addTick tick).1 = false ∧ (b.addTick tick).2 = b)
        ↔ (tick.timestamp < b.barStart ∨ b.barEnd ≤ tick.timestamp) := by
    intro b tick
    constructor
    · intro ⟨h1, _⟩
      by_contra hout
      rw [BarBuilder.addTick, if_neg hout] at h1
      exact absurd h1 (by simp)
    · intro hout
      rw [BarBuilder.addTick, if_pos hout]
      exact ⟨rfl, rfl⟩
  exact ⟨key, fun b tick h => (key b tick).mpr (Or.inr h.ge)⟩

/-- Witness for `C9_rejection_boundary`: a tick stamped exactly at the end
of the minute window `[0, 60s)` is rejected and mutates nothing. -/
theorem C9_rejection_boundary_witness :
    ((BarBuilder.init ['A'] ['E'] .m1 0 60).addTick
        ⟨['A'], ['E'], 60000000, 1, none⟩).1 = false
    ∧ ((BarBuilder.init ['A'] ['E'] .m1 0 60).addTick
        ⟨['A'], ['E'], 60000000, 1, none⟩).2 = BarBuilder.init ['A'] ['E'] .m1 0 60 :=
  C9_rejection_boundary.2 (BarBuilder.init ['A'] ['E'] .m1 0 60)
    ⟨['A'], ['E'], 60000000, 1, none⟩ (by decide)

/-! ### Builder invariant machinery -/

theorem bmSeconds_eq {i : Interval} {s : ℕ} (h : bmIntervalSeconds i = some s) :
    INTERVAL_SECONDS i = s := by
  cases i <;> simp_all [bmIntervalSeconds]

theorem bmNewBuilder_eq (sym exch : List Char) {i : Interval} (bs : ℤ) {sec : ℕ}
    (htab : bmIntervalSeconds i = some sec) :
    bmNewBuilder sym exch i bs = some (BarBuilder.init sym exch i bs sec) := by
  rw [bmNewBuilder, htab]
  rfl

/-- Field-level description of an accepted `add_tick`. -/
theorem addTick_in (b : BarBuilder) (tick : QuoteTick)
    (h : ¬(tick.timestamp < b.barStart ∨ b.barEnd ≤ tick.timestamp)) :
    (b.addTick tick).1 = true
    ∧ (b.addTick tick).2.barStart = b.barStart
    ∧ (b.addTick tick).2.barEnd = b.barEnd
    ∧ (b.addTick tick).2.open_ = some (b.open_.getD tick.price)
    ∧ (b.addTick tick).2.high
        = some (match b.high with
          | none => tick.price
          | some hv => if hv < tick.price then tick.price else hv)
    ∧ (b.addTick tick).2.low
        = some (match b.low with
          | none => tick.price
          | some lv => if tick.price < lv then tick.price else lv)
    ∧ (b.addTick tick).2.close = some tick.price
    ∧ (b.addTick tick).2.volume
        = (match tick.volume with
          | none => b.volume
          | some v => if v = 0 then b.volume else b.volume + v)
    ∧ (b.addTick tick).2.tickCount = b.tickCount + 1 := by
  rw [BarBuilder.addTick, if_neg h]
  exact ⟨rfl, rfl, rfl, rfl, rfl, rfl, rfl, rfl, rfl⟩

theorem addTick_window (b : BarBuilder) (tick : QuoteTick) :
    (b.addTick tick).2.barStart = b.barStart
    ∧ (b.addTick tick).2.barEnd = b.barEnd := by
  rw [BarBuilder.addTick]
  split
  · exact ⟨rfl, rfl⟩
  · exact ⟨rfl, rfl⟩

/-- `add_tick` preserves the OHLCV invariant when the tick's volume, if
present, is nonnegative. -/
theorem addTick_inv (b : BarBuilder) (tick : QuoteTick) (hb : BarInv b)
    (hv : ∀ v, tick.volume = some v → 0 ≤ v) :
    BarInv (b.addTick tick).2 := by
  by_cases hcond : tick.timestamp < b.barStart ∨ b.barEnd ≤ tick.timestamp
  · rw [BarBuilder.addTick, if_pos hcond]; exact hb
  · obtain ⟨_, _, _, hopen, hhigh, hlow, hclose, hvolu, hcount⟩ := addTick_in b tick hcond
    obtain ⟨hvol, hempty, hfull⟩ := hb
    refine ⟨?_, ?_, ?_⟩
    · rw [hvolu]
      cases htv : tick.volume with
      | none => exact hvol
      | some v =>
        by_cases hz : v = 0
        · simpa [hz] using hvol
        · have h0v := hv v htv
          simp only [hz, if_false]
          linarith
    · intro hc
      rw [hcount] at hc
      omega
    · intro _
      by_cases h0 : b.tickCount = 0
      · obtain ⟨ho, hh, hl, _, _⟩ := hempty h0
        rw [hopen, hhigh, hlow, hclose, ho, hh, hl]
        exact ⟨tick.price, tick.price, tick.price, tick.price,
          rfl, rfl, rfl, rfl, le_refl _, le_refl _, le_refl _, le_refl _⟩
      · obtain ⟨o, hi, lo, cl, ho, hh, hl, _, b1, b2, b3, b4⟩ := hfull h0
        rw [hopen, hhigh, hlow, hclose, ho, hh, hl]
        refine ⟨o, if hi < tick.price then tick.price else hi,
          if tick.price < lo then tick.price else lo, tick.price,
          rfl, rfl, rfl, rfl, ?_, ?_, ?_, ?_⟩
        · split <;> linarith
        · split <;> linarith
        · split <;> linarith
        · split <;> linarith

theorem init_inv (sym exch : List Char) (i : Interval) (bs : ℤ) (sec : ℕ) :
    BarInv (BarBuilder.init sym exch i bs sec) :=
  ⟨le_refl 0, fun _ => ⟨rfl, rfl, rfl, rfl, rfl⟩, fun h => absurd rfl h⟩

theorem toAggregatedBar_count (b : BarBuilder) (a : AggregatedBar)
    (h : b.toAggregatedBar = some a) :
    a.tickCount = b.tickCount ∧ b.tickCount ≠ 0 := by
  rw [BarBuilder.toAggregatedBar] at h
  split at h
  · exact absurd h (by simp)
  · rename_i h0
    split at h
    · injection h with h2
      subst h2
      exact ⟨rfl, h0⟩
    · exact absurd h (by simp)

theorem saveCompletedBar_mem (b : BarBuilder) (a : AggregatedBar)
    (ha : a ∈ saveCompletedBar b) :
    a.tickCount = b.tickCount ∧ b.tickCount ≠ 0 := by
  rw [saveCompletedBar] at ha
  split at ha
  · exact absurd ha (List.not_mem_nil a)
  · cases hagg : b.toAggregatedBar with
    | none => rw [hagg] at ha; exact absurd ha (List.not_mem_nil a)
    | some x =>
      rw [hagg] at ha
      have ha2 : a ∈ [x] := ha
      obtain rfl := List.mem_singleton.mp ha2
      exact toAggregatedBar_count b a hagg

theorem saveCompletedBar_empty (b : BarBuilder) (h : b.tickCount = 0) :
    saveCompletedBar b = [] := by
  rw [saveCompletedBar, if_pos]
  rw [BarBuilder.isEmpty]
  exact decide_eq_true h

theorem saveCompletedBar_nonempty (b : BarBuilder) (h0 : b.tickCount ≠ 0)
    (hb : BarInv b) :
    ∃ a, saveCompletedBar b = [a] ∧ a.tickCount = b.tickCount := by
  obtain ⟨_, _, hfull⟩ := hb
  obtain ⟨o, hi, lo, cl, ho, hh, hl, hcl, _, _, _, _⟩ := hfull h0
  rw [saveCompletedBar,
    if_neg (by simp [BarBuilder.isEmpty, h0] : ¬(b.isEmpty = true)),
    BarBuilder.toAggregatedBar, if_neg h0, ho, hh, hl, hcl]
  exact ⟨_, rfl, rfl⟩

theorem flushAllBars_mem (bs : List BarBuilder) (a : AggregatedBar)
    (ha : a ∈ (flushAllBars bs).1) : 1 ≤ a.tickCount := by
  rw [flushAllBars] at ha
  suffices hgen : ∀ (l : List BarBuilder) (acc : List AggregatedBar × ℕ),
      (∀ x ∈ acc.1, 1 ≤ x.tickCount) →
      ∀ x ∈ (l.foldl
        (fun acc b =>
          if b.isEmpty then acc else (acc.1 ++ saveCompletedBar b, acc.2 + 1))
        acc).1, 1 ≤ x.tickCount by
    exact hgen bs ([], 0) (by intro x hx; exact absurd hx (List.not_mem_nil x)) a ha
  intro l
  induction l with
  | nil => intro acc hacc x hx; exact hacc x hx
  | cons b rest ih =>
    intro acc hacc x hx
    rw [List.foldl_cons] at hx
    refine ih _ ?_ x hx
    split
    · exact hacc
    · intro y hy
      rw [List.mem_append] at hy
      rcases hy with hy | hy
      · exact hacc y hy
      · have := saveCompletedBar_mem b y hy
        omega

/-! ### The rollover contract of the aggregator (C7) -/

/-- C7: when the slot's current builder is complete relative to the tick's
timestamp, `_process_tick_for_interval` persists that builder (one
aggregated bar exactly when it is non-empty, nothing when it is empty),
replaces it by a fresh builder aligned to the tick, and feeds the tick to
the fresh builder. -/
theorem C7_rollover (tick : QuoteTick) (i : Interval) (cb : BarBuilder)
    (sec : ℕ) (htab : bmIntervalSeconds i = some sec)
    (hdone : cb.isComplete tick.timestamp = true) :
    processTickForInterval tick i (some cb)
      = some (((BarBuilder.init tick.symbol tick.exchange i
            (get_bar_start tick.timestamp i) sec).addTick tick).2,
          saveCompletedBar cb)
    ∧ (((BarBuilder.init tick.symbol tick.exchange i
          (get_bar_start tick.timestamp i) sec).addTick tick).2).barStart
        = get_bar_start tick.timestamp i
    ∧ (cb.tickCount ≠ 0 → BarInv cb →
        ∃ a, saveCompletedBar cb = [a] ∧ a.tickCount = cb.tickCount)
    ∧ (cb.tickCount = 0 → saveCompletedBar cb = []) := by
  refine ⟨?_, ?_, ?_, ?_⟩
  · simp only [processTickForInterval, bmGetBarStart_eq tick.timestamp i sec htab,
      hdone, if_true,
      bmNewBuilder_eq tick.symbol tick.exchange (get_bar_start tick.timestamp i) htab]
  · exact (addTick_window _ tick).1
  · exact fun h0 hb => saveCompletedBar_nonempty cb h0 hb
  · exact saveCompletedBar_empty cb

/-- Witness for `C7_rollover`: a one-minute builder over `[0, 60s)` rolls
over on a tick stamped at 90 s. -/
theorem C7_rollover_witness :
    processTickForInterval ⟨['A'], ['E'], 90000000, 7, none⟩ .m1
        (some (BarBuilder.init ['A'] ['E'] .m1 0 60))
      = some (((BarBuilder.init ['A'] ['E'] .m1
            (get_bar_start 90000000 .m1) 60).addTick
              ⟨['A'], ['E'], 90000000, 7, none⟩).2,
          saveCompletedBar (BarBuilder.init ['A'] ['E'] .m1 0 60)) :=
  (C7_rollover ⟨['A'], ['E'], 90000000, 7, none⟩ .m1
    (BarBuilder.init ['A'] ['E'] .m1 0 60) 60 (by decide) (by decide)).1

/-! ### Builder invariants and empty-flush protection (C8) -/

/-- C8 counterexample: `add_tick` does not guard against a negative tick
volume, so the claimed invariant `volume ≥ 0` is not preserved by *every*
`add_tick`: an accepted tick with volume `-1` drives an empty builder's
volume to `-1 < 0` with `tick_count = 1`. -/
theorem C8_counterexample :
    ((BarBuilder.init ['A'] ['E'] .m1 0 60).addTick
        ⟨['A'], ['E'], 0, 5, some (-1)⟩).1 = true
    ∧ ((BarBuilder.init ['A'] ['E'] .m1 0 60).addTick
        ⟨['A'], ['E'], 0, 5, some (-1)⟩).2.volume = -1
    ∧ ((BarBuilder.init ['A'] ['E'] .m1 0 60).addTick
        ⟨['A'], ['E'], 0, 5, some (-1)⟩).2.tickCount = 1
    ∧ ¬(0 ≤ ((BarBuilder.init ['A'] ['E'] .m1 0 60).addTick
        ⟨['A'], ['E'], 0, 5, some (-1)⟩).2.volume) := by
  refine ⟨?_, ?_, ?_, ?_⟩ <;>
    norm_num [BarBuilder.addTick, BarBuilder.init, usPerSec]

/-- C8 (amended): for ticks whose volume, when present, is nonnegative,
every `add_tick` preserves the invariant `low ≤ open ≤ high`,
`low ≤ close ≤ high`, `volume ≥ 0`, `tick_count ≥ 1` once a tick has been
accepted (`BarInv`); a fresh builder satisfies it; and a builder with
`tick_count = 0` is never flushed — neither by `_save_completed_bar` nor
by `flush_all_bars`, whose every persisted bar has `tick_count ≥ 1`. -/
theorem C8_builder_invariants :
    (∀ (b : BarBuilder) (tick : QuoteTick), BarInv b →
        (∀ v, tick.volume = some v → 0 ≤ v) → BarInv (b.addTick tick).2)
    ∧ (∀ (sym exch : List Char) (i : Interval) (bs : ℤ) (sec : ℕ),
        BarInv (BarBuilder.init sym exch i bs sec))
    ∧ (∀ (b : BarBuilder) (tick : QuoteTick),
        (b.addTick tick).1 = true → 1 ≤ (b.addTick tick).2.tickCount)
    ∧ (∀ b : BarBuilder, b.tickCount = 0 → saveCompletedBar b = [])
    ∧ (∀ (bs : List BarBuilder) (a : AggregatedBar),
        a ∈ (flushAllBars bs).1 → 1 ≤ a.tickCount) := by
  refine ⟨addTick_inv, init_inv, ?_, saveCompletedBar_empty, flushAllBars_mem⟩
  intro b tick hacc
  by_cases hcond : tick.timestamp < b.barStart ∨ b.barEnd ≤ tick.timestamp
  · rw [BarBuilder.addTick, if_pos hcond] at hacc
    exact absurd hacc (by simp)
  · have := (addTick_in b tick hcond).2.2.2.2.2.2.2.2
    omega

/-- Witness for `C8_builder_invariants`: the invariant holds after feeding
a nonnegative-volume tick to a fresh builder. -/
theorem C8_builder_invariants_witness :
    BarInv ((BarBuilder.init ['A'] ['E'] .m1 0 60).addTick
        ⟨['A'], ['E'], 0, 5, some 100⟩).2 :=
  C8_builder_invariants.1 (BarBuilder.init ['A'] ['E'] .m1 0 60)
    ⟨['A'], ['E'], 0, 5, some 100⟩
    (C8_builder_invariants.2.1 ['A'] ['E'] .m1 0 60)
    (fun v hv => by cases hv; norm_num)

/-! ### New-builder creation never loses the triggering tick (C10) -/

/-- C10: whenever `_process_tick_for_interval` creates a fresh builder —
because the slot was empty or because its builder was complete — for any
interval present in the manager's duration table (the daily interval
included), the fresh builder starts at the tick's aligned `bar_start`, the
triggering tick is accepted by it, and the builder published afterwards
has `tick_count ≥ 1`. -/
theorem C10_builder_creation (tick : QuoteTick) (i : Interval) (sec : ℕ)
    (cur : Option BarBuilder) (htab : bmIntervalSeconds i = some sec)
    (hnew : cur = none
      ∨ ∃ cb, cur = some cb ∧ cb.isComplete tick.timestamp = true) :
    ∃ saved, processTickForInterval tick i cur
        = some (((BarBuilder.init tick.symbol tick.exchange i
              (get_bar_start tick.timestamp i) sec).addTick tick).2, saved)
      ∧ ((BarBuilder.init tick.symbol tick.exchange i
            (get_bar_start tick.timestamp i) sec).addTick tick).1 = true
      ∧ (((BarBuilder.init tick.symbol tick.exchange i
            (get_bar_start tick.timestamp i) sec).addTick tick).2).barStart
          = get_bar_start tick.timestamp i
      ∧ 1 ≤ (((BarBuilder.init tick.symbol tick.exchange i
            (get_bar_start tick.timestamp i) sec).addTick tick).2).tickCount := by
  have hsec : INTERVAL_SECONDS i = sec := bmSeconds_eq htab
  have hin : ¬(tick.timestamp
        < (BarBuilder.init tick.symbol tick.exchange i
            (get_bar_start tick.timestamp i) sec).barStart
      ∨ (BarBuilder.init tick.symbol tick.exchange i
          (get_bar_start tick.timestamp i) sec).barEnd ≤ tick.timestamp) := by
    rw [BarBuilder.init]
    push_neg
    constructor
    · exact get_bar_start_le tick.timestamp i
    · have := lt_get_bar_start_add tick.timestamp i
      rw [durationUs, hsec] at this
      push_cast at this ⊢
      linarith
  obtain ⟨hacc, hbs, _, _, _, _, _, _, hcount⟩ := addTick_in _ tick hin
  have hcount1 : 1 ≤ (((BarBuilder.init tick.symbol tick.exchange i
      (get_bar_start tick.timestamp i) sec).addTick tick).2).tickCount := by
    rw [hcount]
    exact Nat.le_add_left 1 _
  rcases hnew with rfl | ⟨cb, rfl, hdone⟩
  · refine ⟨[], ?_, hacc, hbs, hcount1⟩
    simp only [processTickForInterval, bmGetBarStart_eq tick.timestamp i sec htab,
      bmNewBuilder_eq tick.symbol tick.exchange (get_bar_start tick.timestamp i) htab]
  · refine ⟨saveCompletedBar cb, ?_, hacc, hbs, hcount1⟩
    simp only [processTickForInterval, bmGetBarStart_eq tick.timestamp i sec htab,
      hdone, if_true,
      bmNewBuilder_eq tick.symbol tick.exchange (get_bar_start tick.timestamp i) htab]

/-- Witness for `C10_builder_creation`: an empty daily slot accepts the
triggering tick of 2021-03-01T12:00:00 UTC. -/
theorem C10_builder_creation_witness :
    ∃ saved, processTickForInterval ⟨['A'], ['E'], 1614600000000000, 7, none⟩ .d1 none
        = some (((BarBuilder.init ['A'] ['E'] .d1
              (get_bar_start 1614600000000000 .d1) 86400).addTick
                ⟨['A'], ['E'], 1614600000000000, 7, none⟩).2, saved)
      ∧ ((BarBuilder.init ['A'] ['E'] .d1
            (get_bar_start 1614600000000000 .d1) 86400).addTick
              ⟨['A'], ['E'], 1614600000000000, 7, none⟩).1 = true
      ∧ (((BarBuilder.init ['A'] ['E'] .d1
            (get_bar_start 1614600000000000 .d1) 86400).addTick
              ⟨['A'], ['E'], 1614600000000000, 7, none⟩).2).barStart
          = get_bar_start 1614600000000000 .d1
      ∧ 1 ≤ (((BarBuilder.init ['A'] ['E'] .d1
            (get_bar_start 1614600000000000 .d1) 86400).addTick
              ⟨['A'], ['E'], 1614600000000000, 7, none⟩).2).tickCount := by
  have h := C10_builder_creation ⟨['A'], ['E'], 1614600000000000, 7, none⟩ .d1
    86400 none (by decide) (Or.inl rfl)
  exact h

/-! ### Session isolation of the quote handler (C6) -/

/-- C6: a `qsd` quote update whose embedded session id differs from the
client's current session id is discarded without side effects: the handler
compares the id before touching anything else, dispatches no subscriber
callback and modifies no builder, cache entry or other client state. -/
theorem C6_session_isolation (sessionId : List Char) (subs : List (List Char))
    (sid quoteData : Json) (rest : List Json) (now : ℤ)
    (hmismatch : sid ≠ Json.str sessionId) :
    handleQuoteUpdate sessionId subs (sid :: quoteData :: rest) now = none := by
  simp only [handleQuoteUpdate]
  rw [if_pos hmismatch]

/-- Witness for `C6_session_isolation`: an update stamped with the
pre-reconnect session id is dropped even though its symbol is subscribed. -/
theorem C6_session_isolation_witness :
    handleQuoteUpdate ['q','s','_','n','e','w'] [['N','Q',':','A','A']]
      [Json.str ['q','s','_','o','l','d'],
       Json.obj (.cons ['n'] (.str ['N','Q',':','A','A'])
         (.cons ['v'] (.obj (.cons ['l','p'] (.int 5) .nil)) .nil))] 0 = none :=
  C6_session_isolation ['q','s','_','n','e','w'] [['N','Q',':','A','A']]
    (Json.str ['q','s','_','o','l','d'])
    (Json.obj (.cons ['n'] (.str ['N','Q',':','A','A'])
      (.cons ['v'] (.obj (.cons ['l','p'] (.int 5) .nil)) .nil)))
    [] 0 (by decide)

/-! ### Heartbeat echo of the receive loop (C3) -/

theorem hbAt_some {l ds : List Char} (h : hbAt l = some ds) :
    ∃ c2 rest2, l = '~' :: 'h' :: '~' :: c2 :: rest2
      ∧ isDigitChar c2 = true
      ∧ ds = (c2 :: rest2).takeWhile isDigitChar := by
  unfold hbAt at h
  split at h
  · rename_i c2 rest2
    split at h
    · rename_i hdig
      exact ⟨c2, rest2, rfl, hdig, (Option.some.inj h).symm⟩
    · exact absurd h (by simp)
  · exact absurd h (by simp)

theorem mem_takeWhile_digit {c : Char} {l : List Char}
    (h : c ∈ l.takeWhile isDigitChar) : isDigitChar c = true := by
  induction l with
  | nil => simp [List.takeWhile] at h
  | cons a t ih =>
    rw [List.takeWhile] at h
    by_cases ha : isDigitChar a
    · rw [ha] at h
      rcases List.mem_cons.mp h with rfl | h2
      · exact ha
      · exact ih h2
    · rw [Bool.eq_false_iff.mpr ha] at h
      exact absurd h (List.not_mem_nil c)

theorem searchHeartbeat_digits (l ds : List Char)
    (h : searchHeartbeat l = some ds) : ∀ c ∈ ds, isDigitChar c = true := by
  induction l with
  | nil => exact absurd h (by simp [searchHeartbeat])
  | cons a t ih =>
    rw [searchHeartbeat] at h
    cases hat : hbAt (a :: t) with
    | some ds2 =>
      rw [hat] at h
      obtain ⟨c2, rest2, _, _, hds2⟩ := hbAt_some hat
      obtain rfl := Option.some.inj h
      intro c hc
      rw [hds2] at hc
      exact mem_takeWhile_digit hc
    | none =>
      rw [hat] at h
      exact ih h

theorem searchHeartbeat_contains (l ds : List Char)
    (h : searchHeartbeat l = some ds) : containsHB l = true := by
  induction l with
  | nil => exact absurd h (by simp [searchHeartbeat])
  | cons a t ih =>
    rw [searchHeartbeat] at h
    rw [containsHB]
    cases hat : hbAt (a :: t) with
    | some ds2 =>
      obtain ⟨c2, rest2, heq, _, _⟩ := hbAt_some hat
      obtain ⟨rfl, heq2⟩ := List.cons.inj heq
      rw [heq2, startsHB]
      simp
    | none =>
      rw [hat] at h
      rw [ih h]
      simp

theorem digit_ascii {c : Char} (h : isDigitChar c = true) : c.toNat < 0x80 := by
  rw [isDigitChar] at h
  have := of_decide_eq_true h
  omega

theorem utf8Len_ascii (l : List Char) (h : ∀ c ∈ l, c.toNat < 0x80) :
    utf8Len l = l.length := by
  induction l with
  | nil => rfl
  | cons c t ih =>
    rw [utf8Len, utf8Size, if_pos (h c (List.mem_cons_self c t)),
      ih (fun x hx => h x (List.mem_cons_of_mem c hx)), List.length_cons]
    omega

/-- C3 (counterexample): the claim's second cited receive loop
(`features/market_data/providers/tradingview_ws.py` `run_forever`, the one
`QuoteService` runs) violates both halves of the claim on the chunk
`~m~4~m~~h~5` + one framed message: it answers with the fixed, unframed
`~h~1` - not the chunk's `~h~5` body and not wrapped in a `~m~<len>~m~`
frame - and dispatches nothing, although the chunk decodes to one
non-heartbeat message. -/
theorem C3_counterexample :
    twsProcessChunk c3Chunk = ([['~', 'h', '~', '1']], [])
    ∧ parseMessages c3Chunk = [jsonMessage ['h', 'i'] JArr.nil]
    ∧ ['~', 'h', '~', '1'] ≠ frameRaw (['~', 'h', '~'] ++ ['5']) := by decide

/-- C3 (amended): the two receive loops diverge on heartbeat chunks. The
`infrastructure/tradingview/websocket.py` loop answers a chunk whose first
heartbeat is `~h~<n>` by sending exactly that `~h~<n>` body wrapped in the
standard `~m~<byte-length>~m~` frame (the body is ASCII, so the length
field is its byte length) and still decodes and dispatches every
non-heartbeat message of the same chunk; the
`features/market_data/providers/tradingview_ws.py` loop instead answers any
heartbeat-containing chunk with the fixed, unframed `~h~1` and decodes
nothing from it, dropping its non-heartbeat messages. -/
theorem C3_heartbeat_echo (chunk ds : List Char)
    (hhb : searchHeartbeat chunk = some ds) :
    processChunk chunk
      = ([['~','m','~'] ++ natRepr (utf8Len (['~','h','~'] ++ ds))
            ++ ['~','m','~'] ++ (['~','h','~'] ++ ds)],
         parseMessages chunk)
    ∧ twsProcessChunk chunk = ([['~', 'h', '~', '1']], []) := by
  constructor
  · have hds := searchHeartbeat_digits chunk ds hhb
    have hascii : ∀ c ∈ ('~' :: 'h' :: '~' :: ds), c.toNat < 0x80 := by
      intro c hc
      rcases List.mem_cons.mp hc with rfl | hc
      · decide
      rcases List.mem_cons.mp hc with rfl | hc
      · decide
      rcases List.mem_cons.mp hc with rfl | hc
      · decide
      · exact digit_ascii (hds c hc)
    have hlen : utf8Len (['~','h','~'] ++ ds) = (['~','h','~'] ++ ds).length :=
      utf8Len_ascii _ hascii
    rw [processChunk, chunkEchoes,
      if_pos (by rw [searchHeartbeat_contains chunk ds hhb]),
      hhb, hlen]
    rfl
  · rw [twsProcessChunk, if_pos (by rw [searchHeartbeat_contains chunk ds hhb])]

/-- Witness for `C3_heartbeat_echo`: on the chunk holding heartbeat `~h~5`
and one framed message, the first loop echoes the framed `~h~5` body and
keeps the chunk's message, while the second loop answers `~h~1` and
dispatches nothing. -/
theorem C3_heartbeat_echo_witness :
    searchHeartbeat c3Chunk = some ['5']
    ∧ (processChunk c3Chunk
        = ([['~','m','~'] ++ natRepr (utf8Len (['~','h','~'] ++ ['5']))
              ++ ['~','m','~'] ++ (['~','h','~'] ++ ['5'])],
           parseMessages c3Chunk)
      ∧ twsProcessChunk c3Chunk = ([['~', 'h', '~', '1']], [])) :=
  ⟨by decide, C3_heartbeat_echo c3Chunk ['5'] (by decide)⟩



/-! ### Decimal digits: `natRepr` inverts through `digitsVal` -/

theorem natDigsAux_acc (f : ℕ) : ∀ n acc, natDigsAux f n acc = natDigsAux f n [] ++ acc := by
  induction f with
  | zero => intro n acc; rfl
  | succ g ih =>
    intro n acc
    simp only [natDigsAux]
    by_cases h : n < 10
    · rw [if_pos h, if_pos h]
      rfl
    · rw [if_neg h, if_neg h, ih (n / 10) (digitChar (n % 10) :: acc),
        ih (n / 10) [digitChar (n % 10)]]
      simp

theorem natDigsAux_irrel (n : ℕ) : ∀ f g acc, n < f → n < g →
    natDigsAux f n acc = natDigsAux g n acc := by
  induction n using Nat.strong_induction_on with
  | _ n ih =>
    intro f g acc hf hg
    obtain ⟨f2, rfl⟩ : ∃ f2, f = f2 + 1 := ⟨f - 1, by omega⟩
    obtain ⟨g2, rfl⟩ : ∃ g2, g = g2 + 1 := ⟨g - 1, by omega⟩
    simp only [natDigsAux]
    by_cases h : n < 10
    · rw [if_pos h, if_pos h]
    · rw [if_neg h, if_neg h]
      exact ih (n / 10) (by omega) f2 g2 _ (by omega) (by omega)

theorem natRepr_unfold (n : ℕ) :
    natRepr n = (if n < 10 then [] else natRepr (n / 10)) ++ [digitChar (n % 10)] := by
  rw [natRepr]
  simp only [natDigsAux]
  by_cases h : n < 10
  · rw [if_pos h, if_pos h, Nat.mod_eq_of_lt h]
    rfl
  · rw [if_neg h, if_neg h, natDigsAux_acc, natRepr]
    congr 1
    exact natDigsAux_irrel (n / 10) n (n / 10 + 1) [] (by omega) (by omega)

theorem digitChar_toNat (d : ℕ) (h : d < 10) : (digitChar d).toNat = 48 + d := by
  interval_cases d <;> decide

theorem isDigitChar_digitChar (d : ℕ) (h : d < 10) : isDigitChar (digitChar d) = true := by
  rw [isDigitChar]
  have := digitChar_toNat d h
  simp only [this]
  apply decide_eq_true
  omega

theorem natRepr_digits (n : ℕ) : ∀ c ∈ natRepr n, isDigitChar c = true := by
  induction n using Nat.strong_induction_on with
  | _ n ih =>
    rw [natRepr_unfold]
    intro c hc
    rw [List.mem_append] at hc
    rcases hc with hc | hc
    · by_cases h : n < 10
      · rw [if_pos h] at hc
        exact absurd hc (List.not_mem_nil c)
      · rw [if_neg h] at hc
        exact ih (n / 10) (by omega) c hc
    · rw [List.mem_singleton] at hc
      subst hc
      exact isDigitChar_digitChar (n % 10) (by omega)

theorem natRepr_ne_nil (n : ℕ) : natRepr n ≠ [] := by
  rw [natRepr_unfold]
  simp

theorem digitsVal_append_last (xs : List Char) (c : Char) :
    digitsVal (xs ++ [c]) = 10 * digitsVal xs + digitVal c := by
  rw [digitsVal, digitsVal, List.foldl_append]
  rfl

theorem digitVal_digitChar (d : ℕ) (h : d < 10) : digitVal (digitChar d) = d := by
  rw [digitVal, digitChar_toNat d h]
  omega

theorem digitsVal_natRepr (n : ℕ) : digitsVal (natRepr n) = n := by
  induction n using Nat.strong_induction_on with
  | _ n ih =>
    rw [natRepr_unfold, digitsVal_append_last, digitVal_digitChar (n % 10) (by omega)]
    by_cases h : n < 10
    · rw [if_pos h]
      have : digitsVal [] = 0 := rfl
      rw [this]
      omega
    · rw [if_neg h, ih (n / 10) (by omega)]
      omega

theorem natRepr_head (n : ℕ) (hn : n ≠ 0) :
    ∃ c t, natRepr n = c :: t ∧ isDigitChar c = true ∧ c ≠ '0' := by
  induction n using Nat.strong_induction_on with
  | _ n ih =>
    rw [natRepr_unfold]
    by_cases h : n < 10
    · rw [if_pos h, Nat.mod_eq_of_lt h]
      refine ⟨digitChar n, [], rfl, isDigitChar_digitChar n h, ?_⟩
      intro heq
      have h2 := congrArg Char.toNat heq
      rw [digitChar_toNat n h] at h2
      have : ('0' : Char).toNat = 48 := by decide
      omega
    · rw [if_neg h]
      obtain ⟨c, t, hrepr, hdig, hne⟩ := ih (n / 10) (by omega) (by omega)
      exact ⟨c, t ++ [digitChar (n % 10)], by rw [hrepr]; rfl, hdig, hne⟩

theorem takeWhile_digit_append (ds rest : List Char)
    (hds : ∀ c ∈ ds, isDigitChar c = true) :
    (ds ++ rest).takeWhile isDigitChar = ds ++ rest.takeWhile isDigitChar
    ∧ (ds ++ rest).dropWhile isDigitChar = rest.dropWhile isDigitChar := by
  induction ds with
  | nil => exact ⟨rfl, rfl⟩
  | cons c t ih =>
    have hc : isDigitChar c = true := hds c (List.mem_cons_self c t)
    have iht := ih (fun x hx => hds x (List.mem_cons_of_mem c hx))
    constructor
    · rw [List.cons_append, List.takeWhile_cons, hc, List.cons_append, iht.1]
      simp
    · rw [List.cons_append, List.dropWhile_cons, hc, iht.2]
      simp

theorem numDelim_run (rest : List Char) (h : numDelim rest = true) :
    rest.takeWhile isDigitChar = [] ∧ rest.dropWhile isDigitChar = rest := by
  cases rest with
  | nil => exact ⟨rfl, rfl⟩
  | cons c t =>
    rw [numDelim] at h
    have hc : isDigitChar c = false := by
      cases hd : isDigitChar c
      · rfl
      · rw [hd] at h; simp at h
    rw [List.takeWhile_cons, List.dropWhile_cons, hc]
    exact ⟨rfl, by simp⟩

/-! ### Number round-trip -/

theorem parseUNum_natRepr (n : ℕ) (rest : List Char) (hrest : numDelim rest = true) :
    parseUNum (natRepr n ++ rest) = some (n, rest) := by
  by_cases h0 : n = 0
  · subst h0
    rfl
  · obtain ⟨c, t, hrepr, hdig, hc0⟩ := natRepr_head n h0
    have ht : ∀ x ∈ t, isDigitChar x = true := fun x hx =>
      natRepr_digits n x (by rw [hrepr]; exact List.mem_cons_of_mem c hx)
    have htw := takeWhile_digit_append t rest ht
    have hnr := numDelim_run rest hrest
    have hval : digitsVal (c :: t) = n := by
      rw [← hrepr]
      exact digitsVal_natRepr n
    rw [hrepr, List.cons_append, parseUNum.eq_def]
    split
    · rename_i heq
      rw [List.cons.injEq] at heq
      exact absurd heq.1 hc0
    · rename_i c2 r2 heq
      rw [List.cons.injEq] at heq
      obtain ⟨h1, h2⟩ := heq
      subst h1
      subst h2
      rw [if_pos hdig, htw.1, htw.2, hnr.1, hnr.2, List.append_nil, hval]
    · rename_i heq
      exact absurd heq (by simp)

theorem numDelim_false_head {c : Char} {cs : List Char}
    (hrest : numDelim (c :: cs) = true) :
    isDigitChar c = false ∧ c ≠ '.' ∧ c ≠ 'e' ∧ c ≠ 'E' := by
  rw [numDelim] at hrest
  have hc : (isDigitChar c || decide (c = '.') || decide (c = 'e')
      || decide (c = 'E')) = false := by
    cases hx : (isDigitChar c || decide (c = '.') || decide (c = 'e')
        || decide (c = 'E'))
    · rfl
    · rw [hx] at hrest
      simp at hrest
  simp only [Bool.or_eq_false_iff, decide_eq_false_iff_not] at hc
  exact ⟨hc.1.1.1, hc.1.1.2, hc.1.2, hc.2⟩

theorem parseNumCore_natRepr (m : ℕ) (rest : List Char) (hrest : numDelim rest = true) :
    parseNumCore (natRepr m ++ rest) = some ((m : ℤ), rest) := by
  rw [parseNumCore, parseUNum_natRepr m rest hrest]
  split
  · rename_i heq
    exact absurd heq (by simp)
  · rename_i k r heq
    injection heq with h3
    obtain ⟨h1, h2⟩ := Prod.mk.inj h3
    subst h1
    subst h2
    split
    · obtain ⟨_, hdot, _, _⟩ := numDelim_false_head hrest
      exact absurd rfl hdot
    · obtain ⟨_, _, he, _⟩ := numDelim_false_head hrest
      exact absurd rfl he
    · obtain ⟨_, _, _, hE⟩ := numDelim_false_head hrest
      exact absurd rfl hE
    · rfl

theorem natRepr_head_not_minus (m : ℕ) (rest r : List Char)
    (heq : natRepr m ++ rest = '-' :: r) : False := by
  by_cases h0 : m = 0
  · rw [h0] at heq
    have h1 : natRepr 0 = ['0'] := rfl
    rw [h1, List.cons_append] at heq
    exact absurd (List.cons.inj heq).1 (by decide)
  · obtain ⟨c, t, hrepr, hdig, _⟩ := natRepr_head m h0
    rw [hrepr, List.cons_append] at heq
    obtain ⟨rfl, _⟩ := List.cons.inj heq
    exact absurd hdig (by decide)

theorem parseNum_intRepr (n : ℤ) (rest : List Char) (hrest : numDelim rest = true) :
    parseNum (intRepr n ++ rest) = some (n, rest) := by
  by_cases hn : n < 0
  · have harg : intRepr n ++ rest = '-' :: (natRepr n.natAbs ++ rest) := by
      rw [intRepr, if_pos hn]
      simp
    rw [harg]
    have step : parseNum ('-' :: (natRepr n.natAbs ++ rest))
        = (match parseNumCore (natRepr n.natAbs ++ rest) with
          | some (k, r) => some (-k, r)
          | none => none) := rfl
    rw [step, parseNumCore_natRepr n.natAbs rest hrest]
    show some (-((n.natAbs : ℤ)), rest) = some (n, rest)
    have habs : -((n.natAbs : ℤ)) = n := by omega
    rw [habs]
  · rw [intRepr, if_neg hn, List.nil_append, parseNum.eq_def]
    split
    · rename_i r heq
      exact absurd heq (fun h => natRepr_head_not_minus n.natAbs rest r h)
    · rw [parseNumCore_natRepr n.natAbs rest hrest]
      have habs : ((n.natAbs : ℤ)) = n := by omega
      rw [habs]

/-! ### String round-trip -/

theorem char_valid_ranges (c : Char) :
    c.toNat < 0xd800 ∨ (0xe000 ≤ c.toNat ∧ c.toNat < 0x110000) := c.valid

theorem hexVal_hexDigitChar (d : ℕ) (h : d < 16) : hexVal (hexDigitChar d) = some d := by
  interval_cases d <;> decide

theorem hex4Val_hex4 (n : ℕ) (h : n < 0x10000) :
    hex4Val (hexDigitChar (n / 4096 % 16)) (hexDigitChar (n / 256 % 16))
      (hexDigitChar (n / 16 % 16)) (hexDigitChar (n % 16)) = some n := by
  rw [hex4Val, hexVal_hexDigitChar _ (by omega), hexVal_hexDigitChar _ (by omega),
    hexVal_hexDigitChar _ (by omega), hexVal_hexDigitChar _ (by omega)]
  simp only [Option.some.injEq]
  omega

theorem parseStringBody_escapeChar (c : Char) (t : List Char) :
    parseStringBody (escapeChar c ++ t)
      = Option.map (fun p => (c :: p.1, p.2)) (parseStringBody t) := by
  rw [escapeChar]
  by_cases h1 : c = '"'
  · rw [if_pos h1]
    subst h1
    cases hpt : parseStringBody t with
    | none => simp [parseStringBody, unescapeChar, hpt]
    | some pr =>
      obtain ⟨s, r⟩ := pr
      simp [parseStringBody, unescapeChar, hpt]
  rw [if_neg h1]
  by_cases h2 : c = '\\'
  · rw [if_pos h2]
    subst h2
    cases hpt : parseStringBody t with
    | none => simp [parseStringBody, unescapeChar, hpt]
    | some pr =>
      obtain ⟨s, r⟩ := pr
      simp [parseStringBody, unescapeChar, hpt]
  rw [if_neg h2]
  by_cases h3 : 0x20 ≤ c.toNat ∧ c.toNat ≤ 0x7e
  · rw [if_pos h3]
    have hge : ¬(c.toNat < 0x20) := by omega
    rw [List.cons_append, List.nil_append]
    cases hpt : parseStringBody t with
    | none => simp [parseStringBody, h1, h2, hge, hpt]
    | some pr =>
      obtain ⟨s, r⟩ := pr
      simp [parseStringBody, h1, h2, hge, hpt]
  rw [if_neg h3]
  by_cases h4 : c = '\n'
  · rw [if_pos h4]
    subst h4
    cases hpt : parseStringBody t with
    | none => simp [parseStringBody, unescapeChar, hpt]
    | some pr =>
      obtain ⟨s, r⟩ := pr
      simp [parseStringBody, unescapeChar, hpt]
  rw [if_neg h4]
  by_cases h5 : c = '\r'
  · rw [if_pos h5]
    subst h5
    cases hpt : parseStringBody t with
    | none => simp [parseStringBody, unescapeChar, hpt]
    | some pr =>
      obtain ⟨s, r⟩ := pr
      simp [parseStringBody, unescapeChar, hpt]
  rw [if_neg h5]
  by_cases h6 : c = '\t'
  · rw [if_pos h6]
    subst h6
    cases hpt : parseStringBody t with
    | none => simp [parseStringBody, unescapeChar, hpt]
    | some pr =>
      obtain ⟨s, r⟩ := pr
      simp [parseStringBody, unescapeChar, hpt]
  rw [if_neg h6]
  by_cases h7 : c.toNat = 8
  · rw [if_pos h7]
    have hc : c = Char.ofNat 8 := by rw [← h7, Char.ofNat_toNat]
    cases hpt : parseStringBody t with
    | none => simp [parseStringBody, unescapeChar, hpt, hc]
    | some pr =>
      obtain ⟨s, r⟩ := pr
      simp [parseStringBody, unescapeChar, hpt, hc]
  rw [if_neg h7]
  by_cases h8 : c.toNat = 12
  · rw [if_pos h8]
    have hc : c = Char.ofNat 12 := by rw [← h8, Char.ofNat_toNat]
    cases hpt : parseStringBody t with
    | none => simp [parseStringBody, unescapeChar, hpt, hc]
    | some pr =>
      obtain ⟨s, r⟩ := pr
      simp [parseStringBody, unescapeChar, hpt, hc]
  rw [if_neg h8]
  by_cases h9 : c.toNat < 0x10000
  · rw [if_pos h9]
    have hval : c.toNat < 0xd800 ∨ 0xe000 ≤ c.toNat := by
      rcases char_valid_ranges c with h | h
      · exact Or.inl h
      · exact Or.inr h.1
    rw [show ('\\' :: 'u' :: hex4 c.toNat ++ t : List Char)
        = '\\' :: 'u' :: hexDigitChar (c.toNat / 4096 % 16)
          :: hexDigitChar (c.toNat / 256 % 16) :: hexDigitChar (c.toNat / 16 % 16)
          :: hexDigitChar (c.toNat % 16) :: t from by rw [hex4]; rfl]
    cases hpt : parseStringBody t with
    | none =>
      simp only [parseStringBody, hex4Val_hex4 c.toNat h9, if_pos hval, hpt]
      rfl
    | some pr =>
      obtain ⟨s, r⟩ := pr
      simp only [parseStringBody, hex4Val_hex4 c.toNat h9, if_pos hval, hpt,
        Char.ofNat_toNat]
      rfl
  · rw [if_neg h9]
    have hlt : c.toNat < 0x110000 := by
      rcases char_valid_ranges c with h | h
      · omega
      · exact h.2
    have hfirst : ¬((0xd800 + (c.toNat - 0x10000) / 0x400) < 0xd800
        ∨ 0xe000 ≤ (0xd800 + (c.toNat - 0x10000) / 0x400)) := by omega
    have hlow : (0xd800 + (c.toNat - 0x10000) / 0x400) < 0xdc00 := by omega
    have hrange : 0xdc00 ≤ 0xdc00 + (c.toNat - 0x10000) % 0x400
        ∧ 0xdc00 + (c.toNat - 0x10000) % 0x400 < 0xe000 := by
      constructor
      · omega
      · omega
    have harith : 0x10000 + ((0xd800 + (c.toNat - 0x10000) / 0x400) - 0xd800) * 0x400
        + ((0xdc00 + (c.toNat - 0x10000) % 0x400) - 0xdc00) = c.toNat := by omega
    rw [show (('\\' :: 'u' :: hex4 (0xd800 + (c.toNat - 0x10000) / 0x400))
          ++ ('\\' :: 'u' :: hex4 (0xdc00 + (c.toNat - 0x10000) % 0x400)) ++ t
        : List Char)
        = '\\' :: 'u'
          :: hexDigitChar ((0xd800 + (c.toNat - 0x10000) / 0x400) / 4096 % 16)
          :: hexDigitChar ((0xd800 + (c.toNat - 0x10000) / 0x400) / 256 % 16)
          :: hexDigitChar ((0xd800 + (c.toNat - 0x10000) / 0x400) / 16 % 16)
          :: hexDigitChar ((0xd800 + (c.toNat - 0x10000) / 0x400) % 16)
          :: ('\\' :: 'u'
          :: hexDigitChar ((0xdc00 + (c.toNat - 0x10000) % 0x400) / 4096 % 16)
          :: hexDigitChar ((0xdc00 + (c.toNat - 0x10000) % 0x400) / 256 % 16)
          :: hexDigitChar ((0xdc00 + (c.toNat - 0x10000) % 0x400) / 16 % 16)
          :: hexDigitChar ((0xdc00 + (c.toNat - 0x10000) % 0x400) % 16) :: t)
        from by rw [hex4, hex4]; simp]
    cases hpt : parseStringBody t with
    | none =>
      simp only [parseStringBody, hex4Val_hex4 _ (by omega : (0xd800
          + (c.toNat - 0x10000) / 0x400) < 0x10000),
        if_neg hfirst, if_pos hlow,
        hex4Val_hex4 _ (by omega : (0xdc00 + (c.toNat - 0x10000) % 0x400) < 0x10000),
        if_pos hrange, hpt]
      rfl
    | some pr =>
      obtain ⟨s, r⟩ := pr
      simp only [parseStringBody, hex4Val_hex4 _ (by omega : (0xd800
          + (c.toNat - 0x10000) / 0x400) < 0x10000),
        if_neg hfirst, if_pos hlow,
        hex4Val_hex4 _ (by omega : (0xdc00 + (c.toNat - 0x10000) % 0x400) < 0x10000),
        if_pos hrange, hpt, harith, Char.ofNat_toNat]
      rfl

theorem parseStringBody_escapeString (s rest : List Char) :
    parseStringBody (escapeString s ++ '"' :: rest) = some (s, rest) := by
  induction s with
  | nil => rfl
  | cons c cs ih =>
    rw [escapeString, List.append_assoc, parseStringBody_escapeChar, ih]
    rfl

/-! ### Value round-trip: auxiliary facts -/

theorem skipWs_not_ws {c : Char} (h : isWsChar c = false) (l : List Char) :
    skipWs (c :: l) = c :: l := by
  rw [skipWs, h]
  simp

theorem parseVal_space (f : ℕ) (l : List Char) : parseVal f (' ' :: l) = parseVal f l := by
  cases f with
  | zero => rfl
  | succ g => rfl

theorem parseArrItems_space (f : ℕ) (l : List Char) :
    parseArrItems f (' ' :: l) = parseArrItems f l := by
  cases f with
  | zero => rfl
  | succ g =>
    simp only [parseArrItems, parseVal_space]

theorem parseObjItems_space (f : ℕ) (l : List Char) :
    parseObjItems f (' ' :: l) = parseObjItems f l := by
  cases f with
  | zero => rfl
  | succ g => rfl

theorem digit_char_facts {c : Char} (h : isDigitChar c = true) :
    isWsChar c = false ∧ c ≠ 'n' ∧ c ≠ 't' ∧ c ≠ 'f' ∧ c ≠ '"' ∧ c ≠ '['
    ∧ c ≠ '{' ∧ c ≠ ']' ∧ c ≠ '}' ∧ c ≠ ',' ∧ c ≠ '-' := by
  rw [isDigitChar] at h
  have hr := of_decide_eq_true h
  refine ⟨?_, ?_, ?_, ?_, ?_, ?_, ?_, ?_, ?_, ?_, ?_⟩
  · rw [isWsChar]
    apply decide_eq_false
    intro hor
    rcases hor with h1 | h1 | h1 | h1 <;>
      (subst h1; revert hr; decide)
  all_goals intro heq; subst heq; revert hr; decide

theorem intRepr_head (n : ℤ) :
    ∃ c t, intRepr n = c :: t ∧ (isDigitChar c = true ∨ c = '-') := by
  rw [intRepr]
  by_cases hn : n < 0
  · rw [if_pos hn]
    exact ⟨'-', natRepr n.natAbs, rfl, Or.inr rfl⟩
  · rw [if_neg hn, List.nil_append]
    by_cases h0 : n.natAbs = 0
    · rw [h0]
      exact ⟨'0', [], rfl, Or.inl (by decide)⟩
    · obtain ⟨c, t, hrepr, hdig, _⟩ := natRepr_head n.natAbs h0
      exact ⟨c, t, hrepr, Or.inl hdig⟩

theorem dumps_head (j : Json) :
    ∃ c t, dumps j = c :: t ∧ isWsChar c = false ∧ c ≠ ']' ∧ c ≠ '}' ∧ c ≠ ',' := by
  cases j with
  | null => exact ⟨'n', _, rfl, by decide, by decide, by decide, by decide⟩
  | bool b =>
    cases b with
    | true => exact ⟨'t', _, rfl, by decide, by decide, by decide, by decide⟩
    | false => exact ⟨'f', _, rfl, by decide, by decide, by decide, by decide⟩
  | int n =>
    obtain ⟨c, t, hrepr, hc⟩ := intRepr_head n
    rcases hc with hdig | hminus
    · obtain ⟨hws, _, _, _, _, _, _, hbr, hbc, hcm, _⟩ := digit_char_facts hdig
      exact ⟨c, t, by rw [dumps, hrepr], hws, hbr, hbc, hcm⟩
    · subst hminus
      exact ⟨'-', t, by rw [dumps, hrepr], by decide, by decide, by decide, by decide⟩
  | str s => exact ⟨'"', _, by rw [dumps, quoteString], by decide, by decide, by decide, by decide⟩
  | arr a =>
    cases a with
    | nil => exact ⟨'[', _, rfl, by decide, by decide, by decide, by decide⟩
    | cons h t => exact ⟨'[', _, rfl, by decide, by decide, by decide, by decide⟩
  | obj o =>
    cases o with
    | nil => exact ⟨'{', _, rfl, by decide, by decide, by decide, by decide⟩
    | cons k v t => exact ⟨'{', _, rfl, by decide, by decide, by decide, by decide⟩

theorem dumps_ne_nil (j : Json) : dumps j ≠ [] := by
  obtain ⟨c, t, heq, _⟩ := dumps_head j
  rw [heq]
  simp

theorem numDelim_rb (l : List Char) : numDelim (']' :: l) = true := by
  rw [numDelim]; decide

theorem numDelim_rc (l : List Char) : numDelim ('}' :: l) = true := by
  rw [numDelim]; decide

theorem numDelim_comma (l : List Char) : numDelim (',' :: l) = true := by
  rw [numDelim]; decide

mutual
theorem rtVal (j : Json) (f : ℕ) (rest : List Char) (hf : (dumps j).length < f)
    (hrest : numDelim rest = true) :
    parseVal f (dumps j ++ rest) = some (j, rest) := by
  obtain ⟨f', rfl⟩ : ∃ f', f = f' + 1 := ⟨f - 1, by omega⟩
  cases j with
  | null => rfl
  | bool b => cases b <;> rfl
  | int n =>
    obtain ⟨c, t, hrepr, hc⟩ := intRepr_head n
    have key := parseNum_intRepr n rest hrest
    have hshape : dumps (.int n) ++ rest = c :: (t ++ rest) := by
      simp only [dumps]; rw [hrepr]; rfl
    have hcf : isWsChar c = false ∧ c ≠ 'n' ∧ c ≠ 't' ∧ c ≠ 'f' ∧ c ≠ '"'
        ∧ c ≠ '[' ∧ c ≠ '{' := by
      rcases hc with hdig | hm
      · obtain ⟨h1, h2, h3, h4, h5, h6, h7, _⟩ := digit_char_facts hdig
        exact ⟨h1, h2, h3, h4, h5, h6, h7⟩
      · subst hm
        exact ⟨by decide, by decide, by decide, by decide, by decide, by decide, by decide⟩
    obtain ⟨hws, hn, ht, hf2, hq, hbk, hbc⟩ := hcf
    rw [hshape]
    simp only [parseVal]
    rw [skipWs_not_ws hws]
    split
    · rename_i heq; rw [List.cons.injEq] at heq; exact absurd heq.1 hn
    · rename_i heq; rw [List.cons.injEq] at heq; exact absurd heq.1 ht
    · rename_i heq; rw [List.cons.injEq] at heq; exact absurd heq.1 hf2
    · rename_i heq; rw [List.cons.injEq] at heq; exact absurd heq.1 hq
    · rename_i heq; rw [List.cons.injEq] at heq; exact absurd heq.1 hbk
    · rename_i heq; rw [List.cons.injEq] at heq; exact absurd heq.1 hbc
    · rw [show c :: (t ++ rest) = intRepr n ++ rest from by rw [hrepr]; rfl]
      rw [key]
  | str s =>
    simp [parseVal, dumps, quoteString, skipWs, isWsChar, parseStringBody_escapeString]
  | arr a =>
    cases a with
    | nil => rfl
    | cons h t =>
      obtain ⟨c0, t0, hh, hws0, hbr0, hbc0, hcm0⟩ := dumps_head h
      have hsw := skipWs_not_ws hws0
      have hlen : (dumps (.arr (.cons h t))).length
          = (dumps h ++ dumpsArrTail t).length + 2 := by
        simp only [dumps, List.length_cons, List.length_append, List.length_nil]
        try omega
      have hrec : parseArrItems f' (c0 :: (t0 ++ (dumpsArrTail t ++ ']' :: rest)))
          = some (JArr.cons h t, rest) := by
        rw [show c0 :: (t0 ++ (dumpsArrTail t ++ ']' :: rest))
              = dumps h ++ (dumpsArrTail t ++ ']' :: rest) from by rw [hh]; rfl]
        exact rtArr h t f' rest (by rw [hlen] at hf; omega)
      have hswA : ∀ l, skipWs ('[' :: l) = '[' :: l := skipWs_not_ws (by decide)
      simp [parseVal, dumps, hh, hswA, hsw, hbr0, hrec]
  | obj o =>
    cases o with
    | nil => rfl
    | cons k v t =>
      have hlen : (dumps (.obj (.cons k v t))).length
          = (quoteString k).length + (dumps v ++ dumpsObjTail t).length + 4 := by
        simp only [dumps, quoteString, List.length_cons, List.length_append, List.length_nil]
        try omega
      have hrec : parseObjItems f'
          ('"' :: (escapeString k ++ '"' :: (':' :: ' ' :: (dumps v ++ (dumpsObjTail t ++ '}' :: rest)))))
          = some (JObj.cons k v t, rest) := by
        rw [show '"' :: (escapeString k ++ '"' :: (':' :: ' ' :: (dumps v ++ (dumpsObjTail t ++ '}' :: rest))))
              = quoteString k ++ ':' :: ' ' :: (dumps v ++ (dumpsObjTail t ++ '}' :: rest)) from by
            simp [quoteString]]
        exact rtObj k v t f' rest (by rw [hlen] at hf; omega)
      simp [parseVal, dumps, quoteString, skipWs, isWsChar, hrec]
termination_by sizeOf j

theorem rtArr (h : Json) (t : JArr) (f : ℕ) (rest : List Char)
    (hf : (dumps h ++ dumpsArrTail t).length + 1 < f) :
    parseArrItems f (dumps h ++ (dumpsArrTail t ++ ']' :: rest))
      = some (JArr.cons h t, rest) := by
  obtain ⟨f', rfl⟩ : ∃ f', f = f' + 1 := ⟨f - 1, by omega⟩
  cases t with
  | nil =>
    have hv := rtVal h f' (']' :: rest)
      (by simp only [List.length_append] at hf; omega) (numDelim_rb rest)
    simp only [dumpsArrTail, List.nil_append]
    simp only [parseArrItems, hv]
    rw [skipWs_not_ws (by decide)]
    rfl
  | cons h2 t2 =>
    have hd1 : 1 ≤ (dumps h).length := List.length_pos.mpr (dumps_ne_nil h)
    have hv := rtVal h f' (dumpsArrTail (.cons h2 t2) ++ ']' :: rest)
      (by simp only [List.length_append] at hf; omega)
      (by rw [show dumpsArrTail (JArr.cons h2 t2) ++ ']' :: rest
                = ',' :: (' ' :: (dumps h2 ++ dumpsArrTail t2) ++ ']' :: rest) from rfl]
          exact numDelim_comma _)
    have hrec : parseArrItems f' (dumps h2 ++ (dumpsArrTail t2 ++ ']' :: rest))
        = some (JArr.cons h2 t2, rest) := by
      refine rtArr h2 t2 f' rest ?_
      simp only [List.length_append, dumpsArrTail, List.length_cons] at hf ⊢
      omega
    simp only [parseArrItems, hv]
    simp [dumpsArrTail, skipWs, isWsChar, parseArrItems_space, hrec]
termination_by sizeOf h + sizeOf t

theorem rtObj (k : List Char) (v : Json) (t : JObj) (f : ℕ) (rest : List Char)
    (hf : (quoteString k).length + (dumps v ++ dumpsObjTail t).length + 3 < f) :
    parseObjItems f (quoteString k ++ ':' :: ' ' :: (dumps v ++ (dumpsObjTail t ++ '}' :: rest)))
      = some (JObj.cons k v t, rest) := by
  obtain ⟨f', rfl⟩ : ∃ f', f = f' + 1 := ⟨f - 1, by omega⟩
  cases t with
  | nil =>
    have hv := rtVal v f' ('}' :: rest)
      (by simp only [List.length_append] at hf; omega) (numDelim_rc rest)
    simp only [dumpsObjTail, List.nil_append]
    simp [parseObjItems, quoteString, skipWs, isWsChar,
      parseStringBody_escapeString, parseVal_space, hv]
  | cons k2 v2 t2 =>
    have hq2 : (quoteString k2).length = (escapeString k2).length + 2 := by
      rw [quoteString]; simp
    have hd2 : 1 ≤ (dumps v).length := List.length_pos.mpr (dumps_ne_nil v)
    have hv := rtVal v f' (dumpsObjTail (.cons k2 v2 t2) ++ '}' :: rest)
      (by simp only [List.length_append] at hf; omega)
      (by rw [show dumpsObjTail (JObj.cons k2 v2 t2) ++ '}' :: rest
                = ',' :: (' ' :: (quoteString k2 ++ ':' :: ' ' :: (dumps v2 ++ dumpsObjTail t2)) ++ '}' :: rest) from rfl]
          exact numDelim_comma _)
    have hrec : parseObjItems f'
        ('"' :: (escapeString k2 ++ '"' :: ':' :: ' ' :: (dumps v2 ++ (dumpsObjTail t2 ++ '}' :: rest))))
        = some (JObj.cons k2 v2 t2, rest) := by
      rw [show '"' :: (escapeString k2 ++ '"' :: ':' :: ' ' :: (dumps v2 ++ (dumpsObjTail t2 ++ '}' :: rest)))
            = quoteString k2 ++ ':' :: ' ' :: (dumps v2 ++ (dumpsObjTail t2 ++ '}' :: rest)) from by
          simp [quoteString]]
      refine rtObj k2 v2 t2 f' rest ?_
      simp only [List.length_append, dumpsObjTail, List.length_cons, quoteString] at hf ⊢
      simp at hf ⊢
      omega
    simp [parseObjItems, quoteString, skipWs, isWsChar,
      parseStringBody_escapeString, parseVal_space, parseObjItems_space, hv, hrec]
termination_by sizeOf v + sizeOf t
end

/-- Full JSON round-trip: `json.loads(json.dumps(obj))` recovers the object. -/
theorem loads_dumps (j : Json) : loads (dumps j) = some j := by
  have hv := rtVal j ((dumps j).length + 1) [] (by omega) rfl
  rw [List.append_nil] at hv
  rw [loads, hv]
  rfl

/-! ### Frame codec: marker and split lemmas -/

theorem matchMarker_some_iff (l r : List Char) :
    matchMarker l = some r ↔
      ∃ ds, ds ≠ [] ∧ (∀ c ∈ ds, isDigitChar c = true) ∧
        l = '~' :: 'm' :: '~' :: (ds ++ '~' :: 'm' :: '~' :: r) := by
  constructor
  · intro h
    rw [matchMarker.eq_def] at h
    split at h
    · rename_i rest
      split at h
      · exact absurd h (by simp)
      · rename_i c t htw
        split at h
        · rename_i r' hdw
          rw [Option.some.injEq] at h
          subst h
          refine ⟨rest.takeWhile isDigitChar, by rw [htw]; simp,
            fun x hx => mem_takeWhile_digit hx, ?_⟩
          rw [← hdw, List.takeWhile_append_dropWhile]
        · exact absurd h (by simp)
    · exact absurd h (by simp)
  · rintro ⟨ds, hne, hdig, rfl⟩
    obtain ⟨htw, hdw⟩ := takeWhile_digit_append ds ('~' :: 'm' :: '~' :: r) hdig
    rw [show ('~' :: 'm' :: '~' :: r).takeWhile isDigitChar = [] from rfl] at htw
    rw [List.append_nil] at htw
    rw [show ('~' :: 'm' :: '~' :: r).dropWhile isDigitChar = '~' :: 'm' :: '~' :: r from rfl] at hdw
    cases ds with
    | nil => exact absurd rfl hne
    | cons d dt =>
      simp only [matchMarker, htw, hdw]

theorem matchMarker_frameRaw_append (body tail : List Char) :
    matchMarker (frameRaw body ++ tail) = some (body ++ tail) := by
  rw [matchMarker_some_iff]
  refine ⟨natRepr body.length, natRepr_ne_nil _, natRepr_digits _, ?_⟩
  simp [frameRaw]

theorem splitFirst_of_matchMarker {l r : List Char} (h : matchMarker l = some r) :
    splitFirst l = some ([], r) := by
  cases l with
  | nil => exact absurd h (by simp [show matchMarker [] = none from rfl])
  | cons c cs =>
    rw [splitFirst, h]

theorem splitFirst_cons_none {c : Char} {cs : List Char}
    (h : splitFirst (c :: cs) = none) :
    matchMarker (c :: cs) = none ∧ splitFirst cs = none := by
  rw [splitFirst] at h
  constructor
  · cases hm : matchMarker (c :: cs) with
    | none => rfl
    | some r => rw [hm] at h; exact absurd h (by simp)
  · cases hm : matchMarker (c :: cs) with
    | some r => rw [hm] at h; exact absurd h (by simp)
    | none =>
      rw [hm] at h
      cases hs : splitFirst cs with
      | none => rfl
      | some pr =>
        obtain ⟨p, r⟩ := pr
        rw [hs] at h
        exact absurd h (by simp)

theorem marker_chars {x : Char} {ds : List Char}
    (hdig : ∀ c ∈ ds, isDigitChar c = true)
    (hx : x ∈ '~' :: 'm' :: '~' :: (ds ++ ['~', 'm', '~'])) :
    x = '~' ∨ x = 'm' ∨ isDigitChar x = true := by
  simp only [List.mem_cons, List.mem_append, List.not_mem_nil, or_false] at hx
  rcases hx with rfl | rfl | rfl | hx | rfl | rfl | rfl
  · exact Or.inl rfl
  · exact Or.inr (Or.inl rfl)
  · exact Or.inl rfl
  · exact Or.inr (Or.inr (hdig x hx))
  · exact Or.inl rfl
  · exact Or.inr (Or.inl rfl)
  · exact Or.inl rfl

theorem matchMarker_append_close {b0 F : List Char} {r : List Char}
    (hm : matchMarker ((b0 ++ ['}']) ++ F) = some r)
    (hnone : matchMarker (b0 ++ ['}']) = none) : False := by
  rw [matchMarker_some_iff] at hm
  obtain ⟨ds, hne, hdig, hl⟩ := hm
  have hl2 : (b0 ++ ['}']) ++ F
      = ('~' :: 'm' :: '~' :: (ds ++ ['~', 'm', '~'])) ++ r := by
    rw [hl]; simp
  rw [List.append_eq_append_iff] at hl2
  rcases hl2 with ⟨a, ha1, ha2⟩ | ⟨a, ha1, ha2⟩
  · -- b0 ++ ['}'] is a prefix of the marker: '}' would be a marker char
    have hmem : '}' ∈ '~' :: 'm' :: '~' :: (ds ++ ['~', 'm', '~']) := by
      rw [ha1]
      exact List.mem_append_left a (by simp)
    rcases marker_chars hdig hmem with h | h | h
    · exact absurd h (by decide)
    · exact absurd h (by decide)
    · exact absurd h (by decide)
  · -- the marker sits inside b0 ++ ['}']: contradicts hnone
    have hsome : matchMarker (b0 ++ ['}']) = some a := by
      rw [matchMarker_some_iff]
      exact ⟨ds, hne, hdig, by rw [ha1]; simp⟩
    rw [hsome] at hnone
    exact absurd hnone (by simp)

theorem splitFirst_close_append (b0 F R : List Char)
    (hb : splitFirst (b0 ++ ['}']) = none)
    (hF : matchMarker F = some R) :
    splitFirst ((b0 ++ ['}']) ++ F) = some (b0 ++ ['}'], R) := by
  induction b0 with
  | nil =>
    have h0 : (([] : List Char) ++ ['}']) ++ F = '}' :: F := by simp
    rw [h0, splitFirst]
    rw [show matchMarker ('}' :: F) = none from rfl]
    rw [splitFirst_of_matchMarker hF]
    rfl
  | cons c b0' ih =>
    have hb2 : splitFirst (c :: (b0' ++ ['}'])) = none := by
      rw [List.cons_append] at hb
      exact hb
    have hb' := splitFirst_cons_none hb2
    have hm : matchMarker (((c :: b0') ++ ['}']) ++ F) = none := by
      cases hmm : matchMarker (((c :: b0') ++ ['}']) ++ F) with
      | none => rfl
      | some r =>
        exact (matchMarker_append_close hmm
          (by rw [List.cons_append]; exact hb'.1)).elim
    have hshape : ((c :: b0') ++ ['}']) ++ F = c :: ((b0' ++ ['}']) ++ F) := by simp
    rw [hshape] at hm ⊢
    rw [splitFirst, hm, ih hb'.2]
    rfl

theorem reSplitAux_none (f : ℕ) (l : List Char) (h : splitFirst l = none) :
    reSplitAux f l = [l] := by
  cases f with
  | zero => rfl
  | succ g => simp only [reSplitAux, h]

/-! ### Serialized JSON is pure ASCII (ensure_ascii=True) -/

theorem hexDigitChar_ascii (d : ℕ) (h : d < 16) : (hexDigitChar d).toNat < 0x80 := by
  interval_cases d <;> decide

theorem hex4_ascii (n : ℕ) : ∀ x ∈ '\\' :: 'u' :: hex4 n, x.toNat < 0x80 := by
  intro x hx
  simp only [hex4, List.mem_cons, List.not_mem_nil, or_false] at hx
  rcases hx with rfl | rfl | rfl | rfl | rfl | rfl
  · decide
  · decide
  · exact hexDigitChar_ascii _ (by omega)
  · exact hexDigitChar_ascii _ (by omega)
  · exact hexDigitChar_ascii _ (by omega)
  · exact hexDigitChar_ascii _ (by omega)

theorem escapeChar_ascii (c : Char) : ∀ x ∈ escapeChar c, x.toNat < 0x80 := by
  intro x hx
  rw [escapeChar] at hx
  split_ifs at hx with h1 h2 h3 h4 h5 h6 h7 h8 h9
  · fin_cases hx <;> decide
  · fin_cases hx <;> decide
  · rcases List.mem_singleton.mp hx with rfl
    omega
  · fin_cases hx <;> decide
  · fin_cases hx <;> decide
  · fin_cases hx <;> decide
  · fin_cases hx <;> decide
  · fin_cases hx <;> decide
  · exact hex4_ascii _ x hx
  · rcases List.mem_append.mp hx with hx | hx
    · exact hex4_ascii _ x hx
    · exact hex4_ascii _ x hx

theorem escapeString_ascii (s : List Char) : ∀ x ∈ escapeString s, x.toNat < 0x80 := by
  induction s with
  | nil => intro x hx; simp [escapeString] at hx
  | cons c t ih =>
    intro x hx
    rw [escapeString, List.mem_append] at hx
    rcases hx with hx | hx
    · exact escapeChar_ascii c x hx
    · exact ih x hx

theorem natRepr_ascii (n : ℕ) : ∀ x ∈ natRepr n, x.toNat < 0x80 :=
  fun x hx => digit_ascii (natRepr_digits n x hx)

theorem intRepr_ascii (n : ℤ) : ∀ x ∈ intRepr n, x.toNat < 0x80 := by
  intro x hx
  rw [intRepr, List.mem_append] at hx
  rcases hx with hx | hx
  · split at hx
    · rcases List.mem_singleton.mp hx with rfl
      decide
    · simp at hx
  · exact natRepr_ascii _ x hx

theorem quoteString_ascii (s : List Char) : ∀ x ∈ quoteString s, x.toNat < 0x80 := by
  intro x hx
  rw [quoteString] at hx
  rcases List.mem_cons.mp hx with rfl | hx
  · decide
  · rcases List.mem_append.mp hx with hx | hx
    · exact escapeString_ascii s x hx
    · rcases List.mem_singleton.mp hx with rfl
      decide

mutual
theorem dumps_ascii (j : Json) : ∀ x ∈ dumps j, x.toNat < 0x80 := by
  cases j with
  | null => intro x hx; fin_cases hx <;> decide
  | bool b =>
    intro x hx
    cases b with
    | true =>
      have hx2 : x ∈ ['t', 'r', 'u', 'e'] := hx
      fin_cases hx2 <;> decide
    | false =>
      have hx2 : x ∈ ['f', 'a', 'l', 's', 'e'] := hx
      fin_cases hx2 <;> decide
  | int n => intro x hx; exact intRepr_ascii n x hx
  | str s => intro x hx; exact quoteString_ascii s x hx
  | arr a =>
    cases a with
    | nil => intro x hx; fin_cases hx <;> decide
    | cons h t =>
      intro x hx
      simp only [dumps, List.mem_cons, List.mem_append, List.not_mem_nil, or_false] at hx
      rcases hx with rfl | (hx | hx) | rfl
      · decide
      · exact dumps_ascii h x hx
      · exact dumpsArrTail_ascii t x hx
      · decide
  | obj o =>
    cases o with
    | nil => intro x hx; fin_cases hx <;> decide
    | cons k v t =>
      intro x hx
      simp only [dumps, List.mem_cons, List.mem_append, List.not_mem_nil, or_false] at hx
      rcases hx with rfl | hx | rfl | rfl | (hx | hx) | rfl
      · decide
      · exact quoteString_ascii k x hx
      · decide
      · decide
      · exact dumps_ascii v x hx
      · exact dumpsObjTail_ascii t x hx
      · decide
theorem dumpsArrTail_ascii (t : JArr) : ∀ x ∈ dumpsArrTail t, x.toNat < 0x80 := by
  cases t with
  | nil => intro x hx; simp [dumpsArrTail] at hx
  | cons h t2 =>
    intro x hx
    simp only [dumpsArrTail, List.mem_cons, List.mem_append] at hx
    rcases hx with rfl | rfl | hx | hx
    · decide
    · decide
    · exact dumps_ascii h x hx
    · exact dumpsArrTail_ascii t2 x hx
theorem dumpsObjTail_ascii (t : JObj) : ∀ x ∈ dumpsObjTail t, x.toNat < 0x80 := by
  cases t with
  | nil => intro x hx; simp [dumpsObjTail] at hx
  | cons k v t2 =>
    intro x hx
    simp only [dumpsObjTail, List.mem_cons, List.mem_append] at hx
    rcases hx with rfl | rfl | hx | rfl | rfl | hx | hx
    · decide
    · decide
    · exact quoteString_ascii k x hx
    · decide
    · decide
    · exact dumps_ascii v x hx
    · exact dumpsObjTail_ascii t2 x hx
end

theorem utf8Len_dumps (j : Json) : utf8Len (dumps j) = (dumps j).length :=
  utf8Len_ascii _ (dumps_ascii j)

theorem containsMarker_false {l : List Char} (h : containsMarker l = false) :
    splitFirst l = none := by
  rw [containsMarker] at h
  cases hs : splitFirst l with
  | none => rfl
  | some pr => rw [hs] at h; exact absurd h (by simp)

theorem matchMarker_frameRaw (body : List Char) :
    matchMarker (frameRaw body) = some body := by
  have h := matchMarker_frameRaw_append body []
  rwa [List.append_nil, List.append_nil] at h

theorem frameRaw_len (body : List Char) : 1 ≤ (frameRaw body).length := by
  rw [frameRaw]
  simp

theorem reSplit_frame (body : List Char) (h : splitFirst body = none) :
    reSplit (frameRaw body) = [[], body] := by
  obtain ⟨g, hg⟩ : ∃ g, (frameRaw body).length = g + 1 :=
    ⟨(frameRaw body).length - 1, by have := frameRaw_len body; omega⟩
  rw [reSplit, hg]
  simp only [reSplitAux, splitFirst_of_matchMarker (matchMarker_frameRaw body)]
  rw [reSplitAux_none g body h]

theorem reSplit_two_frames (b0 fb : List Char)
    (h1 : splitFirst (b0 ++ ['}']) = none)
    (h2 : splitFirst fb = none) :
    reSplit (frameRaw (b0 ++ ['}']) ++ frameRaw fb) = [[], b0 ++ ['}'], fb] := by
  obtain ⟨g, hg⟩ : ∃ g, (frameRaw (b0 ++ ['}']) ++ frameRaw fb).length = g + 2 := by
    refine ⟨(frameRaw (b0 ++ ['}']) ++ frameRaw fb).length - 2, ?_⟩
    have e1 := frameRaw_len (b0 ++ ['}'])
    have e2 := frameRaw_len fb
    rw [List.length_append]
    omega
  rw [reSplit, hg]
  simp only [reSplitAux,
    splitFirst_of_matchMarker (matchMarker_frameRaw_append (b0 ++ ['}']) (frameRaw fb)),
    splitFirst_close_append b0 (frameRaw fb) fb h1 (matchMarker_frameRaw fb)]
  rw [reSplitAux_none g fb h2]

theorem pyStrip_nil : pyStrip [] = [] := rfl

theorem pyStrip_obj (X : List Char) : pyStrip ('{' :: (X ++ ['}'])) = '{' :: (X ++ ['}']) := by
  have s1 : ('{' :: (X ++ ['}'])).dropWhile pyIsSpace = '{' :: (X ++ ['}']) := by
    rw [List.dropWhile_cons, if_neg (by decide)]
  have s2 : ('{' :: (X ++ ['}'])).reverse = '}' :: (X.reverse ++ ['{']) := by simp
  have s3 : ('}' :: (X.reverse ++ ['{'])).dropWhile pyIsSpace = '}' :: (X.reverse ++ ['{']) := by
    rw [List.dropWhile_cons, if_neg (by decide)]
  rw [pyStrip, s1, s2, s3]
  simp

theorem dumps_obj_shape (k : List Char) (v : Json) (t : JObj) :
    dumps (.obj (.cons k v t))
      = '{' :: ((quoteString k ++ ':' :: ' ' :: (dumps v ++ dumpsObjTail t)) ++ ['}']) := by
  simp [dumps]

theorem msg_facts (m : List Char) (p : JArr) :
    pyStrip (dumps (jsonMessage m p)) = dumps (jsonMessage m p)
    ∧ startsHB (dumps (jsonMessage m p)) = false
    ∧ dumps (jsonMessage m p) ≠ []
    ∧ dumps (jsonMessage m p)
        = ('{' :: (quoteString ['m'] ++ ':' :: ' ' ::
            (dumps (.str m) ++ dumpsObjTail (.cons ['p'] (.arr p) .nil)))) ++ ['}'] := by
  have hX : dumps (jsonMessage m p)
      = '{' :: ((quoteString ['m'] ++ ':' :: ' ' ::
          (dumps (.str m) ++ dumpsObjTail (.cons ['p'] (.arr p) .nil))) ++ ['}']) :=
    dumps_obj_shape ['m'] (.str m) (.cons ['p'] (.arr p) .nil)
  refine ⟨?_, ?_, ?_, ?_⟩
  · rw [hX, pyStrip_obj]
  · rw [hX]; rfl
  · rw [hX]; simp
  · rw [hX]; simp

/-- C5 (counterexample): the frame round-trip fails when the method string
itself contains a `~m~<digits>~m~` marker: the decoder re-splits inside the
JSON payload and drops the message, so `decode(encode(method, params))` is
`[]`, not the encoded message. -/
theorem C5_counterexample :
    parseMessages (createMessage ['~', 'm', '~', '1', '~', 'm', '~'] JArr.nil)
      ≠ [jsonMessage ['~', 'm', '~', '1', '~', 'm', '~'] JArr.nil] := by decide

/-- C5 (amended): provided the serialized JSON of each message contains no
`~m~<digits>~m~` marker, `_parse_messages (_create_message m p)` yields exactly
the single message `{"m": m, "p": p}`, the concatenation of two encoded
messages decodes to exactly those two messages in order, and the length field
of an encoded frame equals the exact UTF-8 byte length of the JSON segment
that follows (the payload is pure ASCII, so Python's `len` is the byte
length). -/
theorem C5_frame_codec (m1 m2 : List Char) (p1 p2 : JArr)
    (h1 : containsMarker (dumps (jsonMessage m1 p1)) = false)
    (h2 : containsMarker (dumps (jsonMessage m2 p2)) = false) :
    parseMessages (createMessage m1 p1) = [jsonMessage m1 p1]
    ∧ parseMessages (createMessage m1 p1 ++ createMessage m2 p2)
        = [jsonMessage m1 p1, jsonMessage m2 p2]
    ∧ createMessage m1 p1
        = ['~', 'm', '~'] ++ natRepr (utf8Len (dumps (jsonMessage m1 p1)))
          ++ ['~', 'm', '~'] ++ dumps (jsonMessage m1 p1) := by
  obtain ⟨hpy1, hsb1, hne1, hX1⟩ := msg_facts m1 p1
  obtain ⟨hpy2, hsb2, hne2, hX2⟩ := msg_facts m2 p2
  have hs1 : splitFirst (dumps (jsonMessage m1 p1)) = none := containsMarker_false h1
  have hs2 : splitFirst (dumps (jsonMessage m2 p2)) = none := containsMarker_false h2
  refine ⟨?_, ?_, ?_⟩
  · rw [createMessage, parseMessages, reSplit_frame _ hs1]
    simp only [List.filterMap_cons, List.filterMap_nil]
    simp [pyStrip_nil, hpy1, hsb1, hne1, loads_dumps]
  · rw [createMessage, createMessage, parseMessages]
    rw [show frameRaw (dumps (jsonMessage m1 p1))
          = frameRaw (('{' :: (quoteString ['m'] ++ ':' :: ' ' ::
              (dumps (.str m1) ++ dumpsObjTail (.cons ['p'] (.arr p1) .nil)))) ++ ['}'])
        from by rw [← hX1]]
    rw [reSplit_two_frames _ _ (by rw [← hX1]; exact hs1) hs2]
    rw [← hX1]
    simp only [List.filterMap_cons, List.filterMap_nil]
    simp [pyStrip_nil, hpy1, hsb1, hne1, hpy2, hsb2, hne2, loads_dumps]
  · rw [utf8Len_dumps, createMessage, frameRaw]

/-- Witness for C5: concrete messages `{"m": "q", "p": []}` and
`{"m": "r", "p": [5]}` satisfy the marker-freeness hypotheses, and the
round-trip, concatenation and length-field properties hold for them. -/
theorem C5_frame_codec_witness :
    containsMarker (dumps (jsonMessage ['q'] JArr.nil)) = false
    ∧ containsMarker (dumps (jsonMessage ['r'] (JArr.cons (.int 5) JArr.nil))) = false
    ∧ (parseMessages (createMessage ['q'] JArr.nil) = [jsonMessage ['q'] JArr.nil]
      ∧ parseMessages (createMessage ['q'] JArr.nil
            ++ createMessage ['r'] (JArr.cons (.int 5) JArr.nil))
          = [jsonMessage ['q'] JArr.nil, jsonMessage ['r'] (JArr.cons (.int 5) JArr.nil)]
      ∧ createMessage ['q'] JArr.nil
          = ['~', 'm', '~'] ++ natRepr (utf8Len (dumps (jsonMessage ['q'] JArr.nil)))
            ++ ['~', 'm', '~'] ++ dumps (jsonMessage ['q'] JArr.nil)) :=
  ⟨by decide, by decide,
    C5_frame_codec ['q'] ['r'] JArr.nil (JArr.cons (.int 5) JArr.nil)
      (by decide) (by decide)⟩

end PocketQuant
